import Mathlib

/-!
Verification of the ScheduleApp roster-rotation engine.

Shallow embedding of the backend's scheduling logic (`backend/index.js` and the
later iteration of the same file that adds the on-call rota).  SQL tables are
modelled as Lean lists of records; the SQLite unique-key constraints are
reflected by the way the operations look rows up by key.  Dates are modelled as
day indices (`Nat`), ISO weeks as week indices (`Nat`, the week of day `d` is
`d / 7`), and free-text fields (reasons, user names) as opaque `Nat` tokens /
`Bool` presence flags, since the code never inspects their contents.  Row ids
(SQLite AUTOINCREMENT) are not part of the model: the unique business keys
`(date, hour)`, `(date)`, `(week)`, `(week, weekday)` identify rows.
`INSERT OR REPLACE` on a unique key is modelled as an in-place update; SQL
tables carry no row order, so the list order is only a representation choice.
Name ids produced by SQLite AUTOINCREMENT are ≥ 1, so JavaScript truthiness
tests on an id (`if (newDutyPersonId)`, `prev?.main_name_id`) coincide with
null-checks; the model renders them as `Option` matches.
-/

/-- One row of the `hourly_schedule` table. -/
structure HourlyRow where
  date : Nat
  time : Nat
  nameId : Nat
  isEdited : Bool
  originalNameId : Option Nat
  reason : Option Nat
deriving DecidableEq, Repr

/-- One row of the `gate_assignments` table. -/
structure GateRow where
  date : Nat
  mainNameId : Nat
  backupNameId : Option Nat
deriving DecidableEq, Repr

/-- One row of the `weekly_duty` table. -/
structure WeeklyRow where
  week : Nat
  nameId : Option Nat
  isEdited : Bool
  isOffWeek : Bool
  originalNameId : Option Nat
  reason : Option Nat
  weekNumber : Nat
deriving DecidableEq, Repr

/-- One row of the `oncall_schedule` table; `day` is 0..6 for sun..sat. -/
structure OnCallRow where
  week : Nat
  day : Nat
  nameId : Nat
deriving DecidableEq, Repr

/-- The persistent datastore: the tables the generators read and write.
`names` is the roster in id-ascending order (`SELECT * FROM names ORDER BY id`),
`absences` the set of `(name_id, absence_date)` pairs, `oncallPtr` the singleton
`oncall_rotation_state.last_assigned_name_id` record (none if absent). -/
structure DB where
  names : List Nat
  absences : List (Nat × Nat)
  hourly : List HourlyRow
  gate : List GateRow
  weekly : List WeeklyRow
  oncall : List OnCallRow
  oncallPtr : Option Nat
deriving DecidableEq, Repr

/-- `dayjs(date).startOf("isoWeek")` abstracted: the week index of a day. -/
def weekOfDate (d : Nat) : Nat := d / 7

/-- `dayjs(weekStartDate).isoWeek()` abstracted: the informational ISO week
number is a fixed function of the week index (its value is never branched on). -/
def isoWeekNumOf (w : Nat) : Nat := w % 52 + 1

/-- `allNames.filter(n => !absentNameIds.has(n.id))`: the present roster for a
date, in the full roster's (id-ascending) order. -/
def presentOn (names : List Nat) (absences : List (Nat × Nat)) (d : Nat) : List Nat :=
  names.filter (fun n => !absences.contains (n, d))

/-- `allNames[(allNames.findIndex(n => n.id === lastId) + 1) % allNames.length]`:
the rotation successor.  JavaScript `findIndex` yields -1 when absent, making
the expression select index 0. -/
def nextAfter (allNames : List Nat) (lastId : Nat) : Nat :=
  match allNames.findIdx? (fun n => n == lastId) with
  | some i => allNames.getD ((i + 1) % allNames.length) 0
  | none => allNames.getD 0 0

/-! ## Generic list lemmas used throughout -/

theorem filter_filter_of_imp {α : Type} (p q : α → Bool) (l : List α)
    (h : ∀ a, p a = true → q a = true) : (l.filter q).filter p = l.filter p := by
  induction l with
  | nil => rfl
  | cons a l ih =>
    by_cases hp : p a = true
    · simp [List.filter_cons, h a hp, hp, ih]
    · rcases hq : q a with _ | _ <;>
        simp [List.filter_cons, hq, (Bool.not_eq_true _).mp hp, ih]

theorem find?_filter_of_imp {α : Type} (p q : α → Bool) (l : List α)
    (h : ∀ a, p a = true → q a = true) : (l.filter q).find? p = l.find? p := by
  induction l with
  | nil => rfl
  | cons a l ih =>
    by_cases hp : p a = true
    · simp [List.filter_cons, h a hp, List.find?_cons, hp]
    · rcases hq : q a with _ | _ <;>
        simp [List.filter_cons, hq, List.find?_cons, (Bool.not_eq_true _).mp hp, ih]

theorem find?_append_none {α : Type} (p : α → Bool) (l₁ l₂ : List α)
    (h : l₁.find? p = none) : (l₁ ++ l₂).find? p = l₂.find? p := by
  induction l₁ with
  | nil => rfl
  | cons a l ih =>
    rcases hp : p a with _ | _
    · simp only [List.cons_append, List.find?_cons, hp] at h ⊢
      exact ih h
    · simp [List.find?_cons, hp] at h

theorem find?_append_some {α : Type} (p : α → Bool) (l₁ l₂ : List α) (a : α)
    (h : l₁.find? p = some a) : (l₁ ++ l₂).find? p = some a := by
  induction l₁ with
  | nil => simp at h
  | cons b l ih =>
    rcases hp : p b with _ | _
    · simp only [List.cons_append, List.find?_cons, hp] at h ⊢
      exact ih h
    · simp only [List.cons_append, List.find?_cons, hp] at h ⊢
      exact h

theorem find?_map_of_pred {α : Type} (p : α → Bool) (g : α → α) (l : List α)
    (h : ∀ a, p (g a) = p a) : (l.map g).find? p = (l.find? p).map g := by
  induction l with
  | nil => rfl
  | cons a l ih =>
    rcases hp : p a with _ | _ <;> simp [List.find?_cons, h a, hp, ih]

theorem filter_map_of_pred {α : Type} (p : α → Bool) (g : α → α) (l : List α)
    (hfix : ∀ a, p a = true → g a = a) (h : ∀ a, p (g a) = p a) :
    (l.map g).filter p = l.filter p := by
  induction l with
  | nil => rfl
  | cons a l ih =>
    rcases hp : p a with _ | _
    · simp [List.filter_cons, h a, hp, ih]
    · simp [List.filter_cons, h a, hp, ih, hfix a hp]

theorem find?_eq_head?_filter {α : Type} (p : α → Bool) (l : List α) :
    l.find? p = (l.filter p).head? := by
  induction l with
  | nil => rfl
  | cons a l ih =>
    rcases hp : p a with _ | _
    · simp [List.find?_cons, List.filter_cons, hp]
    · simp [List.find?_cons, List.filter_cons, hp, ih]

theorem filter_eq_self_of_all {α : Type} (p : α → Bool) (l : List α)
    (h : ∀ a ∈ l, p a = true) : l.filter p = l := by
  induction l with
  | nil => rfl
  | cons a l ih =>
    simp [List.filter_cons, h a (List.mem_cons_self a l),
      ih (fun b hb => h b (List.mem_cons_of_mem a hb))]

/-! ## Hourly slot distributor (`regenerateHourlySchedule`) -/

/-- The fixed intraday hour slots `[8, 9, 10, 11, 12, 13]`. -/
def timeSlots : List Nat := [8, 9, 10, 11, 12, 13]

/-- `INSERT OR IGNORE` into `hourly_schedule` on unique key `(date, time)`. -/
def hourlyInsertOrIgnore (h : List HourlyRow) (r : HourlyRow) : List HourlyRow :=
  if h.any (fun x => x.date == r.date && x.time == r.time) then h else h ++ [r]

/-- `DELETE FROM hourly_schedule WHERE scheduled_date = ? AND scheduled_time >= ?
AND is_edited = 0`. -/
def hourlyDeleteFrom (h : List HourlyRow) (d fromHour : Nat) : List HourlyRow :=
  h.filter (fun r => !(r.date == d && decide (fromHour ≤ r.time) && !r.isEdited))

/-- The insertion loop of `regenerateHourlySchedule`: for each remaining time
slot, insert-or-ignore `shuffled[timeSlots.indexOf(time) % shuffled.length]`. -/
def regenHourlyInsert (h : List HourlyRow) (d fromHour : Nat) (shuffled : List Nat) :
    List HourlyRow :=
  let ts := timeSlots.filter (fun t => decide (fromHour ≤ t))
  ts.foldl (fun acc t =>
    hourlyInsertOrIgnore acc
      { date := d, time := t, nameId := shuffled.getD (ts.indexOf t % shuffled.length) 0,
        isEdited := false, originalNameId := none, reason := none }) h

/-- `regenerateHourlySchedule(date, fromHour, userName, reason, presentNames)`.
`hasUser` is the truthiness of `userName` (a reshuffle carries one, the
generate-on-read path passes null); `shuffled` is the random permutation of
`present` produced by the shuffle, supplied as an input since the model is
deterministic. -/
def regenerateHourlySchedule (h : List HourlyRow) (d fromHour : Nat)
    (hasUser : Bool) (present shuffled : List Nat) : List HourlyRow :=
  if h.any (fun r => r.date == d) && !hasUser then h
  else
    let h1 := hourlyDeleteFrom h d fromHour
    if present.isEmpty then h1 else regenHourlyInsert h1 d fromHour shuffled

/-- `UPDATE/INSERT` of `/api/schedule/override`: pin one hourly slot.  The SQL
`CASE WHEN is_edited = 0 THEN ? ELSE original_name_id END` captures the fetched
occupant only on the first pin. -/
def overrideHourlySlot (h : List HourlyRow) (d t nid rs : Nat) : List HourlyRow :=
  match h.find? (fun r => r.date == d && r.time == t) with
  | some row =>
    h.map (fun r =>
      if r.date == d && r.time == t then
        { r with
          nameId := nid,
          reason := some rs,
          originalNameId := if r.isEdited then r.originalNameId else some row.nameId,
          isEdited := true }
      else r)
  | none =>
    h ++ [{ date := d, time := t, nameId := nid, isEdited := true,
            originalNameId := none, reason := some rs }]

/-! ## Gate duty assigner (`regenerateGateAssignment`) -/

/-- The previous day's assignment: `SELECT ... WHERE assignment_date = prevDate`
with `prevDate = date - 1` (phrased as `r.date + 1 = date` to avoid truncated
subtraction; day 0 has no predecessor). -/
def gatePrevRow (g : List GateRow) (d : Nat) : Option GateRow :=
  g.find? (fun r => r.date + 1 == d)

/-- The `newMain` selection of `regenerateGateAssignment`, in priority order:
previous backup if present today, else successor of previous main in present
order, else the first present person. -/
def gateNewMain (present : List Nat) (prev : Option GateRow) : Nat :=
  let viaBackup : Option Nat :=
    match prev with
    | some p =>
      match p.backupNameId with
      | some b => if present.contains b then some b else none
      | none => none
    | none => none
  match viaBackup with
  | some b => b
  | none =>
    match prev with
    | some p =>
      match present.findIdx? (fun q => q == p.mainNameId) with
      | some i => present.getD ((i + 1) % present.length) 0
      | none => present.getD 0 0
    | none => present.getD 0 0

/-- The `newBackup` selection: next present person after the chosen main
(wrap-around), or null when fewer than two are present. -/
def gateNewBackup (present : List Nat) (main : Nat) : Option Nat :=
  if 1 < present.length then
    some (match present.findIdx? (fun q => q == main) with
          | some i => present.getD ((i + 1) % present.length) 0
          | none => present.getD 0 0)
  else none

/-- `regenerateGateAssignment(date, presentNames)`: short-circuits on an
existing row for the date, does nothing when nobody is present, otherwise
inserts the computed main/backup pair. -/
def regenerateGateAssignment (g : List GateRow) (d : Nat) (present : List Nat) :
    List GateRow :=
  if g.any (fun r => r.date == d) then g
  else if present.isEmpty then g
  else
    let m := gateNewMain present (gatePrevRow g d)
    g ++ [{ date := d, mainNameId := m, backupNameId := gateNewBackup present m }]

/-- Lookup of a date's gate row. -/
def gateLookup (g : List GateRow) (d : Nat) : Option GateRow :=
  g.find? (fun r => r.date == d)

/-! ## Weekly duty rotator (`regenerateWeeklyDuty`, both iterations) -/

/-- `WEEKS_TO_GENERATE`. -/
def WEEKS_TO_GENERATE : Nat := 52

/-- The 52-week generation window anchored at the trigger week. -/
def weeklyWindow (w0 : Nat) : List Nat := (List.range WEEKS_TO_GENERATE).map (fun i => w0 + i)

/-- The `editedDutiesMap` snapshot: the manually edited row of a week, if any. -/
def weeklyEditedLookup (tbl : List WeeklyRow) (wk : Nat) : Option WeeklyRow :=
  tbl.find? (fun r => r.isEdited && r.week == wk)

/-- Lookup of any (edited or automatic) row of a week. -/
def weeklyAnyLookup (tbl : List WeeklyRow) (wk : Nat) : Option WeeklyRow :=
  tbl.find? (fun r => r.week == wk)

/-- In-place rewrite of every row of a week (SQL `UPDATE ... WHERE
week_start_date = ?`, and the effect of `INSERT OR REPLACE` on the unique
key). -/
def weeklyReplace (tbl : List WeeklyRow) (r : WeeklyRow) : List WeeklyRow :=
  tbl.map (fun x => if x.week == r.week then r else x)

/-- `INSERT OR REPLACE INTO weekly_duty` keyed on `week_start_date`. -/
def weeklyUpsertReplace (tbl : List WeeklyRow) (r : WeeklyRow) : List WeeklyRow :=
  if tbl.any (fun x => x.week == r.week) then weeklyReplace tbl r else tbl ++ [r]

/-- `SELECT name_id FROM weekly_duty WHERE is_off_week = 0 AND name_id IS NOT
NULL AND week_start_date < ? ORDER BY week_start_date DESC LIMIT 1`: the most
recent actual duty strictly before the window. -/
def weeklyScanBefore (tbl : List WeeklyRow) (w0 : Nat) : Option WeeklyRow :=
  (tbl.filter (fun r => !r.isOffWeek && r.nameId.isSome && decide (r.week < w0))).foldl
    (fun acc r =>
      match acc with
      | none => some r
      | some a => if a.week < r.week then some r else some a) none

/-- The derived initial rotation pointer: the scanned occupant, else the first
roster member. -/
def weeklyInitPointer (tbl : List WeeklyRow) (w0 : Nat) (allNames : List Nat) : Option Nat :=
  match weeklyScanBefore tbl w0 with
  | some r => r.nameId
  | none => allNames.head?

/-- `roster[(index(pointer) + 1) mod len]`, or the first member when the
pointer is still unset. -/
def weeklyComputeNext (allNames : List Nat) (p : Option Nat) : Option Nat :=
  match p with
  | some last => some (nextAfter allNames last)
  | none => allNames.head?

/-- The automatic (unpinned) row the rotator writes for a week. -/
def weeklyAutoRow (wk nid : Nat) : WeeklyRow :=
  { week := wk, nameId := some nid, isEdited := false, isOffWeek := false,
    originalNameId := none, reason := none, weekNumber := isoWeekNumOf wk }

/-- One loop iteration of the first iteration's `regenerateWeeklyDuty`: skip a
manually edited week (advancing the pointer unless it is an off-week), else
compute the next occupant and `INSERT OR REPLACE` it. -/
def weeklyStep1 (allNames : List Nat) (em : Nat → Option WeeklyRow)
    (st : List WeeklyRow × Option Nat) (wk : Nat) : List WeeklyRow × Option Nat :=
  match em wk with
  | some er => if !er.isOffWeek && er.nameId.isSome then (st.1, er.nameId) else st
  | none =>
    match weeklyComputeNext allNames st.2 with
    | some nid => (weeklyUpsertReplace st.1 (weeklyAutoRow wk nid), some nid)
    | none => st

/-- `regenerateWeeklyDuty(triggerDate, allNames)` of `backend/index.js`:
derive the pointer by history scan, then walk the 52-week window. -/
def regenerateWeeklyDuty1 (tbl : List WeeklyRow) (w0 : Nat) (allNames : List Nat) :
    List WeeklyRow :=
  if allNames.isEmpty then tbl
  else
    ((weeklyWindow w0).foldl (weeklyStep1 allNames (weeklyEditedLookup tbl))
      (tbl, weeklyInitPointer tbl w0 allNames)).1

/-- One loop iteration of the later iteration's `regenerateWeeklyDuty`: skip an
edited week; adopt an already correctly populated automatic week; otherwise
compute the occupant and UPDATE the existing row in place or INSERT a new
one.  `em`/`am` are the snapshots taken before the loop. -/
def weeklyStep2 (allNames : List Nat) (em am : Nat → Option WeeklyRow)
    (st : List WeeklyRow × Option Nat) (wk : Nat) : List WeeklyRow × Option Nat :=
  match em wk with
  | some er => if !er.isOffWeek && er.nameId.isSome then (st.1, er.nameId) else st
  | none =>
    match am wk with
    | some ar =>
      if !ar.isEdited && ar.nameId.isSome && !ar.isOffWeek then (st.1, ar.nameId)
      else
        match weeklyComputeNext allNames st.2 with
        | some nid => (weeklyReplace st.1 (weeklyAutoRow wk nid), some nid)
        | none => st
    | none =>
      match weeklyComputeNext allNames st.2 with
      | some nid => (st.1 ++ [weeklyAutoRow wk nid], some nid)
      | none => st

/-- `regenerateWeeklyDuty(triggerDate, allNames)` of the later iteration
(`part_003`). -/
def regenerateWeeklyDuty2 (tbl : List WeeklyRow) (w0 : Nat) (allNames : List Nat) :
    List WeeklyRow :=
  if allNames.isEmpty then tbl
  else
    ((weeklyWindow w0).foldl
      (weeklyStep2 allNames (weeklyEditedLookup tbl) (weeklyAnyLookup tbl))
      (tbl, weeklyInitPointer tbl w0 allNames)).1

/-- The off-week status the later override endpoint reads before updating
(`row ? row.is_off_week : 0`). -/
def weeklyOldOff (tbl : List WeeklyRow) (w : Nat) : Bool :=
  match weeklyAnyLookup tbl w with
  | some r => r.isOffWeek
  | none => false

/-- The UPDATE-or-INSERT stage of the `backend/index.js`
`/api/weekly-duty/override` endpoint: pin the week, with the SQL
`CASE WHEN is_edited = 0 THEN ? ELSE original_name_id END` one-time capture of
the fetched occupant. -/
def weeklyPinStage1 (tbl : List WeeklyRow) (w nid : Nat) (off : Bool) (rs : Nat) :
    List WeeklyRow :=
  match weeklyAnyLookup tbl w with
  | some row =>
    tbl.map (fun r =>
      if r.week == w then
        { r with
          nameId := if off then none else some nid,
          reason := some rs,
          originalNameId := if r.isEdited then r.originalNameId else row.nameId,
          isEdited := true,
          isOffWeek := off }
      else r)
  | none =>
    tbl ++ [{ week := w, nameId := if off then none else some nid, isEdited := true,
              isOffWeek := off, originalNameId := none, reason := some rs,
              weekNumber := isoWeekNumOf w }]

/-- `/api/weekly-duty/override` of `backend/index.js`: pin the week, then
unconditionally delete every unpinned week from it onward
(`DELETE ... WHERE week_start_date >= ? AND is_edited = 0`) and re-run the
rotator. -/
def overrideWeeklyDuty1 (tbl : List WeeklyRow) (allNames : List Nat)
    (w nid : Nat) (off : Bool) (rs : Nat) : List WeeklyRow :=
  regenerateWeeklyDuty1
    ((weeklyPinStage1 tbl w nid off rs).filter
      (fun r => !(decide (w ≤ r.week) && !r.isEdited)))
    w allNames

/-- The UPDATE-or-INSERT stage of the later iteration's
`/api/weekly-duty/override`: the original occupant is saved only when the week
was unpinned and the occupant actually changes; an already-pinned week keeps
its saved original. -/
def weeklyPinStage2 (tbl : List WeeklyRow) (w nid : Nat) (off : Bool) (rs : Nat) :
    List WeeklyRow :=
  match weeklyAnyLookup tbl w with
  | some row =>
    tbl.map (fun r =>
      if r.week == w then
        { r with
          nameId := if off then none else some nid,
          reason := some rs,
          originalNameId :=
            if !row.isEdited && row.nameId != (if off then none else some nid) then row.nameId
            else if row.isEdited then row.originalNameId
            else none,
          isEdited := true,
          isOffWeek := off }
      else r)
  | none =>
    tbl ++ [{ week := w, nameId := if off then none else some nid, isEdited := true,
              isOffWeek := off, originalNameId := none, reason := some rs,
              weekNumber := isoWeekNumOf w }]

/-- `/api/weekly-duty/override` of the later iteration (`part_003`): pin the
week; only when the off-week status changes are the unpinned weeks strictly
after it deleted (`... week_start_date > ? AND is_edited = 0`) and the rotator
re-run — otherwise the table is left as the pin stage produced it. -/
def overrideWeeklyDuty2 (tbl : List WeeklyRow) (allNames : List Nat)
    (w nid : Nat) (off : Bool) (rs : Nat) : List WeeklyRow :=
  if weeklyOldOff tbl w != off then
    regenerateWeeklyDuty2
      ((weeklyPinStage2 tbl w nid off rs).filter
        (fun r => !(decide (w < r.week) && !r.isEdited)))
      w allNames
  else weeklyPinStage2 tbl w nid off rs

/-! ## On-call rota generator (`generateOnCallSchedule`, `part_003`) -/

/-- Lookup of an on-call slot on its unique key `(week_start_date, day_of_week)`. -/
def onCallLookup (tbl : List OnCallRow) (w d : Nat) : Option OnCallRow :=
  tbl.find? (fun r => r.week == w && r.day == d)

/-- The `(week, weekday)` keys of the 52-week on-call window, weeks outer,
sun..sat inner — the order of the generation loops. -/
def onCallKeys (w0 : Nat) : List (Nat × Nat) :=
  ((List.range WEEKS_TO_GENERATE).map (fun i => w0 + i)).flatMap
    (fun w => (List.range 7).map (fun d => (w, d)))

/-- `SELECT ... ORDER BY week_start_date DESC, day-order DESC LIMIT 1`: the
chronologically latest existing on-call entry. -/
def onCallMostRecent (tbl : List OnCallRow) : Option OnCallRow :=
  tbl.foldl
    (fun acc e =>
      match acc with
      | none => some e
      | some a =>
        if a.week < e.week || (a.week == e.week && a.day < e.day) then some e else some a)
    none

/-- The cold-start rotation seed: the last roster member's id, chosen so that
the first computed occupant (its rotation successor) is the first member. -/
def onCallColdStartPtr (allNames : List Nat) : Nat := allNames.getLastD 0

/-- One slot of the on-call generation loop: adopt an existing entry as the new
pointer value, else insert the rotation successor.  `snap` is the
`existingOnCallMap` snapshot; a key absent from it is also absent from the live
table (keys are unique and each window key is visited once), so `INSERT OR
IGNORE` appends. -/
def onCallStep (allNames : List Nat) (snap : Nat → Nat → Option OnCallRow)
    (st : List OnCallRow × Nat) (k : Nat × Nat) : List OnCallRow × Nat :=
  match snap k.1 k.2 with
  | some e => (st.1, e.nameId)
  | none =>
    let nid := nextAfter allNames st.2
    (st.1 ++ [{ week := k.1, day := k.2, nameId := nid }], nid)

/-- `generateOnCallSchedule(triggerDate, allNames)`: returns the new
`oncall_schedule` table and the persisted `oncall_rotation_state` pointer.
When no pointer record exists it is bootstrapped to the last roster member's
id; the working pointer is then seeded from the most recent existing entry, or
from the same cold-start seed when the table is empty, and finally persisted. -/
def generateOnCallSchedule (tbl : List OnCallRow) (ptr : Option Nat) (w0 : Nat)
    (allNames : List Nat) : List OnCallRow × Option Nat :=
  if allNames.isEmpty then (tbl, ptr)
  else
    let cur0 : Nat :=
      match onCallMostRecent tbl with
      | some e => e.nameId
      | none => onCallColdStartPtr allNames
    let res := (onCallKeys w0).foldl
      (onCallStep allNames (fun w d => onCallLookup tbl w d)) (tbl, cur0)
    (res.1, some res.2)

/-! ## `regenerateAll` (the engine behind `EnsureGenerated`) -/

/-- `regenerateAll(date)` of `backend/index.js`: gate, hourly (with no user, so
existing data short-circuits) and weekly duty.  `shuffled` is the hourly
shuffle outcome. -/
def regenerateAll1 (db : DB) (d : Nat) (shuffled : List Nat) : DB :=
  let present := presentOn db.names db.absences d
  { db with
    gate := regenerateGateAssignment db.gate d present,
    hourly := regenerateHourlySchedule db.hourly d 0 false present shuffled,
    weekly := regenerateWeeklyDuty1 db.weekly (weekOfDate d) db.names }

/-- `regenerateAll(date)` of the later iteration (`part_003`): gate, hourly,
weekly duty and the on-call rota. -/
def regenerateAll2 (db : DB) (d : Nat) (shuffled : List Nat) : DB :=
  let present := presentOn db.names db.absences d
  let oc := generateOnCallSchedule db.oncall db.oncallPtr (weekOfDate d) db.names
  { db with
    gate := regenerateGateAssignment db.gate d present,
    hourly := regenerateHourlySchedule db.hourly d 0 false present shuffled,
    weekly := regenerateWeeklyDuty2 db.weekly (weekOfDate d) db.names,
    oncall := oc.1,
    oncallPtr := oc.2 }

/-! ## Frame lemmas for the hourly distributor -/

/-- The rows a cutoff reshuffle of date `d` from hour `H` must not touch:
rows of other dates, pinned rows, and rows before the cutoff. -/
def hourlyKeep (d H : Nat) (r : HourlyRow) : Bool :=
  !(r.date == d) || r.isEdited || decide (r.time < H)

theorem find?_append_single_neg {α : Type} (p : α → Bool) (l : List α) (r : α)
    (h : p r = false) : (l ++ [r]).find? p = l.find? p := by
  rcases hf : l.find? p with _ | a
  · rw [find?_append_none p l [r] hf]
    simp [List.find?_cons, h, hf]
  · rw [find?_append_some p l [r] a hf]

theorem filter_append_single_neg {α : Type} (p : α → Bool) (l : List α) (r : α)
    (h : p r = false) : (l ++ [r]).filter p = l.filter p := by
  simp [List.filter_append, List.filter_cons, h]

theorem hourlyInsertOrIgnore_filter (p : HourlyRow → Bool) (h : List HourlyRow)
    (r : HourlyRow) (hr : p r = false) :
    (hourlyInsertOrIgnore h r).filter p = h.filter p := by
  unfold hourlyInsertOrIgnore
  rcases ha : h.any (fun x => x.date == r.date && x.time == r.time) with _ | _
  · simp only [Bool.false_eq_true, if_false]
    exact filter_append_single_neg p h r hr
  · simp

theorem foldl_hourlyInsert_filter (d H : Nat) (f : Nat → Nat) :
    ∀ (l : List Nat) (acc : List HourlyRow), (∀ t ∈ l, H ≤ t) →
      (l.foldl (fun acc t => hourlyInsertOrIgnore acc
          { date := d, time := t, nameId := f t, isEdited := false,
            originalNameId := none, reason := none }) acc).filter (hourlyKeep d H)
        = acc.filter (hourlyKeep d H) := by
  intro l
  induction l with
  | nil => intro acc _; rfl
  | cons t l ih =>
    intro acc hall
    have ht : H ≤ t := hall t (List.mem_cons_self t l)
    rw [List.foldl_cons, ih _ (fun u hu => hall u (List.mem_cons_of_mem t hu))]
    apply hourlyInsertOrIgnore_filter
    simp [hourlyKeep, Nat.not_lt_of_le ht]

theorem regenHourlyInsert_filter (acc : List HourlyRow) (d H : Nat) (sh : List Nat) :
    (regenHourlyInsert acc d H sh).filter (hourlyKeep d H) = acc.filter (hourlyKeep d H) := by
  unfold regenHourlyInsert
  apply foldl_hourlyInsert_filter
  intro t ht
  have := List.of_mem_filter ht
  simpa using this

theorem hourlyDeleteFrom_filter (h : List HourlyRow) (d H : Nat) :
    (hourlyDeleteFrom h d H).filter (hourlyKeep d H) = h.filter (hourlyKeep d H) := by
  unfold hourlyDeleteFrom
  apply filter_filter_of_imp
  intro r hr
  simp [hourlyKeep] at hr
  simp
  tauto

/-- Claim C3: `Reshuffle(date, cutoffHour, ...)` (a regeneration carrying a user
name, so the early return does not fire) leaves every pinned hourly slot at any
hour, every hourly slot with hour < cutoff, and every slot of another date
untouched — the table filtered to those rows is unchanged; only unpinned slots
of the date with hour ≥ cutoff can be deleted or reassigned. -/
theorem reshuffle_frame (h : List HourlyRow) (d H : Nat) (present shuffled : List Nat) :
    (regenerateHourlySchedule h d H true present shuffled).filter (hourlyKeep d H)
      = h.filter (hourlyKeep d H) := by
  unfold regenerateHourlySchedule
  simp only [Bool.not_true, Bool.and_false, Bool.false_eq_true, if_false]
  rcases hp : present.isEmpty with _ | _
  · simp only [Bool.false_eq_true, if_false]
    rw [regenHourlyInsert_filter, hourlyDeleteFrom_filter]
  · simp only [if_true]
    exact hourlyDeleteFrom_filter h d H

/-- Claim C10: the cutoff reshuffle shuffles the whole present roster, without
excluding occupants of kept (pre-cutoff or pinned) slots, so the same person
can end up both before and after the cutoff: with present roster {1, 2} and a
pre-cutoff slot at hour 8 occupied by person 1, a reshuffle from hour 10 whose
shuffle puts person 1 first keeps slot 8 and also assigns person 1 to hour 10. -/
theorem reshuffle_allows_duplicates :
    ({ date := 0, time := 8, nameId := 1, isEdited := false, originalNameId := none,
       reason := none } : HourlyRow)
        ∈ regenerateHourlySchedule
            [{ date := 0, time := 8, nameId := 1, isEdited := false,
               originalNameId := none, reason := none }] 0 10 true [1, 2] [1, 2] ∧
    ({ date := 0, time := 10, nameId := 1, isEdited := false, originalNameId := none,
       reason := none } : HourlyRow)
        ∈ regenerateHourlySchedule
            [{ date := 0, time := 8, nameId := 1, isEdited := false,
               originalNameId := none, reason := none }] 0 10 true [1, 2] [1, 2] ∧
    8 < 10 ∧ 10 ≤ 10 := by decide

/-! ## Gate duty assigner: continuity and backup distinctness -/

/-- The main occupant recorded for a date, if any. -/
def gateMainOf (g : List GateRow) (d : Nat) : Option Nat :=
  (gateLookup g d).map (fun r => r.mainNameId)

theorem findIdx_mem_spec (l : List Nat) (x : Nat) (hx : x ∈ l) :
    ∃ i, l.findIdx? (fun q => q == x) = some i ∧ i < l.length ∧ l.getD i 0 = x := by
  induction l with
  | nil => simp at hx
  | cons a l ih =>
    by_cases hax : a = x
    · exact ⟨0, by simp [List.findIdx?_cons, hax], by simp, by simp [hax]⟩
    · have hx2 : x ∈ l := by
        rcases List.mem_cons.mp hx with h | h
        · exact absurd h.symm hax
        · exact h
      rcases ih hx2 with ⟨i, h1, h2, h3⟩
      refine ⟨i + 1, ?_, by simpa using h2, by simpa using h3⟩
      have : (a == x) = false := by simpa using hax
      simp [List.findIdx?_cons, this, h1]

theorem getD_mem_of_lt (l : List Nat) (i : Nat) (h : i < l.length) : l.getD i 0 ∈ l := by
  simp [List.getD_eq_getElem?_getD, List.getElem?_eq_getElem h]

theorem getD_eq_elem (l : List Nat) (i : Nat) (h : i < l.length) : l.getD i 0 = l[i] := by
  simp [List.getD_eq_getElem?_getD, List.getElem?_eq_getElem h]

theorem getD_ne_of_nodup (l : List Nat) (hnd : l.Nodup) (i j : Nat)
    (hi : i < l.length) (hj : j < l.length) (hij : i ≠ j) : l.getD i 0 ≠ l.getD j 0 := by
  rw [getD_eq_elem l i hi, getD_eq_elem l j hj]
  intro heq
  exact hij (hnd.getElem_inj_iff.mp heq)

theorem gateNewMain_mem (present : List Nat) (prev : Option GateRow)
    (hne : present ≠ []) : gateNewMain present prev ∈ present := by
  have hlen : 0 < present.length := List.length_pos.mpr hne
  cases prev with
  | none => simpa [gateNewMain] using getD_mem_of_lt present 0 hlen
  | some p =>
    cases hb : p.backupNameId with
    | none =>
      cases hidx : present.findIdx? (fun q => q == p.mainNameId) with
      | none => simpa [gateNewMain, hb, hidx] using getD_mem_of_lt present 0 hlen
      | some i =>
        simpa [gateNewMain, hb, hidx] using
          getD_mem_of_lt present ((i + 1) % present.length) (Nat.mod_lt _ hlen)
    | some b =>
      by_cases hbp : b ∈ present
      · simp [gateNewMain, hb, hbp]
      · cases hidx : present.findIdx? (fun q => q == p.mainNameId) with
        | none => simpa [gateNewMain, hb, hbp, hidx] using getD_mem_of_lt present 0 hlen
        | some i =>
          simpa [gateNewMain, hb, hbp, hidx] using
            getD_mem_of_lt present ((i + 1) % present.length) (Nat.mod_lt _ hlen)

theorem succ_mod_ne_self (i n : Nat) (h2 : 1 < n) (hi : i < n) : (i + 1) % n ≠ i := by
  rcases Nat.lt_or_ge (i + 1) n with hlt | hge
  · rw [Nat.mod_eq_of_lt hlt]
    omega
  · have : i + 1 = n := by omega
    rw [this, Nat.mod_self]
    omega

/-- Claim C9: in every gate assignment the generator creates, the backup is a
member of the present roster distinct from the chosen main, and it is null
exactly when fewer than two roster members are present that day. -/
theorem gate_backup_distinct (present : List Nat) (prev : Option GateRow)
    (hnd : present.Nodup) (hne : present ≠ []) :
    (gateNewBackup present (gateNewMain present prev) = none ↔ present.length < 2) ∧
    (∀ b, gateNewBackup present (gateNewMain present prev) = some b →
      b ∈ present ∧ b ≠ gateNewMain present prev) := by
  have hlen : 0 < present.length := List.length_pos.mpr hne
  have hm : gateNewMain present prev ∈ present := gateNewMain_mem present prev hne
  constructor
  · by_cases h2 : 1 < present.length
    · simp [gateNewBackup, h2]
      omega
    · simp [gateNewBackup, h2]
      omega
  · intro b hb
    by_cases h2 : 1 < present.length
    · rcases findIdx_mem_spec present (gateNewMain present prev) hm with ⟨i, h1, hi, h3⟩
      rw [gateNewBackup, if_pos h2, h1] at hb
      have hb2 : present.getD ((i + 1) % present.length) 0 = b := by
        simpa using hb
      constructor
        
      · rw [← hb2]
        exact getD_mem_of_lt present _ (Nat.mod_lt _ hlen)
      · rw [← hb2, ← h3]
        exact getD_ne_of_nodup present hnd _ i (Nat.mod_lt _ hlen) hi
          (succ_mod_ne_self i present.length h2 hi)
    · rw [gateNewBackup, if_neg h2] at hb
      simp at hb

/-- Witness for `gate_backup_distinct` at present roster `[1, 2, 3]` with no
previous assignment. -/
theorem gate_backup_distinct_witness :
    ([1, 2, 3] : List Nat).Nodup ∧ ([1, 2, 3] : List Nat) ≠ [] ∧
    (∀ b, gateNewBackup [1, 2, 3] (gateNewMain [1, 2, 3] none) = some b →
      b ∈ ([1, 2, 3] : List Nat) ∧ b ≠ gateNewMain [1, 2, 3] none) :=
  ⟨by decide, by decide, (gate_backup_distinct [1, 2, 3] none (by decide) (by decide)).2⟩

/-- Claim C8 counterexample: generate day 5 first (nobody before it), then day
4; day 4's backup is person 2, person 2 is present on day 5, yet day 5's main
is person 1 — gate continuity fails when a later day's assignment already
exists. -/
theorem gate_continuity_counterexample :
    (gateLookup (regenerateGateAssignment (regenerateGateAssignment [] 5 [1, 2]) 4 [1, 2]) 4).map
        (fun r => r.backupNameId) = some (some 2) ∧
    (2 : Nat) ∈ ([1, 2] : List Nat) ∧
    gateMainOf (regenerateGateAssignment (regenerateGateAssignment [] 5 [1, 2]) 4 [1, 2]) 5
      = some 1 ∧
    (1 : Nat) ≠ 2 := by decide

/-- Claim C8 (amended): when day `d+1`'s gate assignment is actually generated
(no row for it exists yet) while day `d`'s assignment has backup `P` and `P` is
present on day `d+1`, then `P` becomes the main of day `d+1`. -/
theorem gate_continuity_generated (g : List GateRow) (d : Nat) (present : List Nat)
    (prow : GateRow) (P : Nat)
    (hprev : gatePrevRow g (d + 1) = some prow)
    (hback : prow.backupNameId = some P)
    (hP : P ∈ present)
    (hnew : gateLookup g (d + 1) = none) :
    gateMainOf (regenerateGateAssignment g (d + 1) present) (d + 1) = some P := by
  have hne : present ≠ [] := by
    intro h
    rw [h] at hP
    simp at hP
  have hany : g.any (fun r => r.date == d + 1) = false := by
    rw [Bool.eq_false_iff]
    intro hc
    rcases List.any_eq_true.mp hc with ⟨r, hr, hrd⟩
    have := List.find?_eq_none.mp hnew r hr
    exact this hrd
  have hie : present.isEmpty = false := by
    simpa [List.isEmpty_iff] using hne
  have hmain : gateNewMain present (gatePrevRow g (d + 1)) = P := by
    rw [hprev]
    simp [gateNewMain, hback, hP]
  unfold regenerateGateAssignment
  rw [hany, hie]
  simp only [Bool.false_eq_true, if_false]
  unfold gateMainOf gateLookup
  rw [find?_append_none _ _ _ hnew, hmain]
  simp

/-- Witness for `gate_continuity_generated`: day 4 has backup 2, day 5 not yet
generated, 2 present — the generated day 5 main is 2. -/
theorem gate_continuity_generated_witness :
    gatePrevRow [{ date := 4, mainNameId := 1, backupNameId := some 2 }] 5
        = some { date := 4, mainNameId := 1, backupNameId := some 2 } ∧
    gateMainOf
      (regenerateGateAssignment [{ date := 4, mainNameId := 1, backupNameId := some 2 }] 5 [1, 2])
      5 = some 2 :=
  ⟨by decide,
   gate_continuity_generated [{ date := 4, mainNameId := 1, backupNameId := some 2 }] 4 [1, 2]
     { date := 4, mainNameId := 1, backupNameId := some 2 } 2 (by decide) (by decide)
     (by decide) (by decide)⟩

/-! ## Weekly rotator: lookup stability lemmas -/

theorem weeklyAnyLookup_replace_self (T : List WeeklyRow) (r : WeeklyRow)
    (hany : T.any (fun x => x.week == r.week) = true) :
    weeklyAnyLookup (weeklyReplace T r) r.week = some r := by
  induction T with
  | nil => simp at hany
  | cons x T ih =>
    rcases hx : (x.week == r.week) with _ | _
    · simp only [List.any_cons, hx, Bool.false_or] at hany
      simp only [weeklyReplace, weeklyAnyLookup, List.map_cons, hx, Bool.false_eq_true,
        if_false, List.find?_cons, hx]
      exact ih hany
    · have hx2 : x.week = r.week := by simpa using hx
      simp [weeklyReplace, weeklyAnyLookup, List.find?_cons, hx2]

theorem weeklyAnyLookup_upsert_self (T : List WeeklyRow) (r : WeeklyRow) :
    weeklyAnyLookup (weeklyUpsertReplace T r) r.week = some r := by
  unfold weeklyUpsertReplace
  rcases hany : T.any (fun x => x.week == r.week) with _ | _
  · simp only [Bool.false_eq_true, if_false]
    have hf : T.find? (fun x => x.week == r.week) = none := by
      rw [List.find?_eq_none]
      intro a ha hc
      have : T.any (fun x => x.week == r.week) = true := List.any_eq_true.mpr ⟨a, ha, hc⟩
      rw [hany] at this
      exact Bool.false_ne_true this
    unfold weeklyAnyLookup
    rw [find?_append_none _ _ _ hf]
    simp [List.find?_cons]
  · simp only [if_true]
    exact weeklyAnyLookup_replace_self T r hany

theorem weeklyAnyLookup_replace_ne (T : List WeeklyRow) (r : WeeklyRow) (w : Nat)
    (hne : r.week ≠ w) : weeklyAnyLookup (weeklyReplace T r) w = weeklyAnyLookup T w := by
  unfold weeklyAnyLookup weeklyReplace
  rw [find?_map_of_pred]
  · rcases hf : T.find? (fun x => x.week == w) with _ | y
    · rw [hf]
      rfl
    · rw [hf]
      have hy := List.find?_some hf
      have hyw : y.week = w := by simpa using hy
      have hyr : (y.week == r.week) = false := by
        rw [beq_eq_false_iff_ne, hyw]
        exact fun hc => hne hc.symm
      simp
      intro hc
      exact absurd (hc.symm.trans hyw) hne
  · intro a
    rcases ha : (a.week == r.week) with _ | _
    · simp [ha]
    · have : a.week = r.week := by simpa using ha
      simp [ha, this, beq_eq_false_iff_ne, hne]

theorem weeklyAnyLookup_upsert_ne (T : List WeeklyRow) (r : WeeklyRow) (w : Nat)
    (hne : r.week ≠ w) : weeklyAnyLookup (weeklyUpsertReplace T r) w = weeklyAnyLookup T w := by
  unfold weeklyUpsertReplace
  rcases hany : T.any (fun x => x.week == r.week) with _ | _
  · simp only [Bool.false_eq_true, if_false]
    unfold weeklyAnyLookup
    apply find?_append_single_neg
    simpa [beq_eq_false_iff_ne] using hne
  · simp only [if_true]
    exact weeklyAnyLookup_replace_ne T r w hne

theorem weeklyStep1_lookup_ne (allNames : List Nat) (em : Nat → Option WeeklyRow)
    (st : List WeeklyRow × Option Nat) (wk w : Nat) (hne : wk ≠ w) :
    weeklyAnyLookup (weeklyStep1 allNames em st wk).1 w = weeklyAnyLookup st.1 w := by
  unfold weeklyStep1
  rcases hem : em wk with _ | er
  · rcases hcn : weeklyComputeNext allNames st.2 with _ | nid
    · simp [hcn]
    · simp only [hcn]
      exact weeklyAnyLookup_upsert_ne st.1 (weeklyAutoRow wk nid) w hne
  · rcases hb : (!er.isOffWeek && er.nameId.isSome) with _ | _ <;> simp [hb]

theorem foldl_weeklyStep1_lookup_ne (allNames : List Nat) (em : Nat → Option WeeklyRow) :
    ∀ (l : List Nat) (st : List WeeklyRow × Option Nat) (w : Nat), (∀ wk ∈ l, wk ≠ w) →
      weeklyAnyLookup ((l.foldl (weeklyStep1 allNames em) st).1) w
        = weeklyAnyLookup st.1 w := by
  intro l
  induction l with
  | nil => intro st w _; rfl
  | cons wk l ih =>
    intro st w hall
    rw [List.foldl_cons, ih _ w (fun u hu => hall u (List.mem_cons_of_mem wk hu))]
    exact weeklyStep1_lookup_ne allNames em st wk w (hall wk (List.mem_cons_self wk l))

/-- Claim C5: processing a manually pinned off-week leaves the rotation state
(table and pointer) untouched, so when the following week is unpinned the
rotator assigns it the successor of the pre-off pointer in full-roster order. -/
theorem offWeek_preserves_pointer (allNames : List Nat) (em : Nat → Option WeeklyRow)
    (T : List WeeklyRow) (p : Nat) (W : Nat) (er : WeeklyRow)
    (h1 : em W = some er) (h2 : er.isOffWeek = true) (h3 : em (W + 1) = none) :
    weeklyStep1 allNames em (T, some p) W = (T, some p) ∧
    weeklyAnyLookup (([W, W + 1].foldl (weeklyStep1 allNames em) (T, some p)).1) (W + 1)
      = some (weeklyAutoRow (W + 1) (nextAfter allNames p)) := by
  have hstep : weeklyStep1 allNames em (T, some p) W = (T, some p) := by
    simp [weeklyStep1, h1, h2]
  refine ⟨hstep, ?_⟩
  rw [List.foldl_cons, hstep, List.foldl_cons, List.foldl_nil]
  show weeklyAnyLookup (weeklyStep1 allNames em (T, some p) (W + 1)).1 (W + 1) = _
  unfold weeklyStep1
  rw [h3]
  show weeklyAnyLookup
      (weeklyUpsertReplace T (weeklyAutoRow (W + 1) (nextAfter allNames p))) (W + 1) = _
  exact weeklyAnyLookup_upsert_self T (weeklyAutoRow (W + 1) (nextAfter allNames p))

/-- Witness for `offWeek_preserves_pointer`: week 10 pinned off, pointer at
person 2 of roster `[1, 2, 3]` — week 11 receives person 3. -/
theorem offWeek_preserves_pointer_witness :
    weeklyEditedLookup [(⟨10, none, true, true, some 1, some 0, 11⟩ : WeeklyRow)] 10
      = some (⟨10, none, true, true, some 1, some 0, 11⟩ : WeeklyRow) ∧
    weeklyAnyLookup
        (([10, 11].foldl
          (weeklyStep1 [1, 2, 3]
            (weeklyEditedLookup [(⟨10, none, true, true, some 1, some 0, 11⟩ : WeeklyRow)]))
          ([(⟨10, none, true, true, some 1, some 0, 11⟩ : WeeklyRow)], some 2)).1) 11
      = some (weeklyAutoRow 11 (nextAfter [1, 2, 3] 2)) :=
  ⟨by decide,
   (offWeek_preserves_pointer [1, 2, 3]
     (weeklyEditedLookup [(⟨10, none, true, true, some 1, some 0, 11⟩ : WeeklyRow)])
     [(⟨10, none, true, true, some 1, some 0, 11⟩ : WeeklyRow)] 2 10
     (⟨10, none, true, true, some 1, some 0, 11⟩ : WeeklyRow)
     (by decide) (by decide) (by decide)).2⟩

/-! ## Weekly rotator: cold-start convention (claim C6) -/

theorem weeklyWindow_eq_cons (w0 : Nat) :
    weeklyWindow w0 = w0 :: (List.range 51).map (fun i => w0 + (i + 1)) := by
  show (List.range 52).map (fun i => w0 + i) = _
  rw [show (52 : Nat) = 51 + 1 from rfl, List.range_succ_eq_map]
  simp [List.map_map, Function.comp, Nat.succ_eq_add_one]

/-- Claim C6: on a weekly-duty cold start (empty `weekly_duty` table, so no
week before the window has a non-off, non-null occupant), the derived pointer
starts at the first roster member, and the first week of the window is
assigned the second roster member in id-ascending order. -/
theorem weekly_coldStart_second_member (allNames : List Nat) (w0 : Nat)
    (h2 : 2 ≤ allNames.length) :
    weeklyInitPointer [] w0 allNames = some (allNames.getD 0 0) ∧
    weeklyAnyLookup (regenerateWeeklyDuty1 [] w0 allNames) w0
      = some (weeklyAutoRow w0 (allNames.getD 1 0)) := by
  rcases allNames with _ | ⟨a, _ | ⟨b, t⟩⟩
  · simp at h2
  · simp at h2
  · have hip : weeklyInitPointer [] w0 (a :: b :: t) = some a := by
      simp [weeklyInitPointer, weeklyScanBefore]
    refine ⟨by simpa using hip, ?_⟩
    have hnext : nextAfter (a :: b :: t) a = b := by
      have h1len : 1 % (a :: b :: t).length = 1 :=
        Nat.mod_eq_of_lt (by simp)
      simp [nextAfter, List.findIdx?_cons, h1len]
    have hne2 : (a :: b :: t).isEmpty = false := by simp
    unfold regenerateWeeklyDuty1
    rw [hne2]
    simp only [Bool.false_eq_true, if_false]
    rw [weeklyWindow_eq_cons, List.foldl_cons, hip]
    have hstep : weeklyStep1 (a :: b :: t) (weeklyEditedLookup []) ([], some a) w0
        = ([weeklyAutoRow w0 b], some b) := by
      unfold weeklyStep1 weeklyEditedLookup
      simp [weeklyComputeNext, hnext, weeklyUpsertReplace]
    rw [hstep, foldl_weeklyStep1_lookup_ne]
    · simp [weeklyAnyLookup, List.find?_cons, weeklyAutoRow]
    · intro wk hwk
      rcases List.mem_map.mp hwk with ⟨i, _, rfl⟩
      omega

/-- Witness for `weekly_coldStart_second_member`: roster `[1, 2]`, window at
week 0 — the pointer starts at person 1 and week 0 is assigned person 2. -/
theorem weekly_coldStart_second_member_witness :
    weeklyInitPointer [] 0 [1, 2] = some 1 ∧
    weeklyAnyLookup (regenerateWeeklyDuty1 [] 0 [1, 2]) 0 = some (weeklyAutoRow 0 2) :=
  weekly_coldStart_second_member [1, 2] 0 (by decide)

/-! ## On-call rota: cold-start bootstrap (claim C7) -/

theorem getLastD_cons_cons (a b : Nat) (t : List Nat) :
    (a :: b :: t).getLastD 0 = (b :: t).getLastD 0 := by
  simp [List.getLastD_eq_getLast?, List.getLast?_cons_cons]

theorem getLastD_mem (l : List Nat) (hne : l ≠ []) : l.getLastD 0 ∈ l := by
  induction l with
  | nil => exact absurd rfl hne
  | cons a l ih =>
    cases l with
    | nil => simp
    | cons b t =>
      rw [getLastD_cons_cons]
      exact List.mem_cons_of_mem a (ih (by simp))

theorem findIdx_getLast_of_nodup (l : List Nat) (hne : l ≠ []) (hnd : l.Nodup) :
    l.findIdx? (fun q => q == l.getLastD 0) = some (l.length - 1) := by
  induction l with
  | nil => exact absurd rfl hne
  | cons a l ih =>
    cases l with
    | nil => simp [List.findIdx?_cons]
    | cons b t =>
      have hmem : (b :: t).getLastD 0 ∈ b :: t := getLastD_mem (b :: t) (by simp)
      have hna : a ∉ b :: t := (List.nodup_cons.mp hnd).1
      have hane : a ≠ (b :: t).getLastD 0 := by
        intro hc
        exact hna (hc ▸ hmem)
      have hbeq : (a == (b :: t).getLastD 0) = false := by
        simpa using hane
      have ihr := ih (by simp) (List.nodup_cons.mp hnd).2
      rw [getLastD_cons_cons, List.findIdx?_cons, hbeq, List.findIdx?_succ, ihr]
      rw [if_neg (by simp)]
      simp

theorem nextAfter_getLast (l : List Nat) (hne : l ≠ []) (hnd : l.Nodup) :
    nextAfter l (l.getLastD 0) = l.getD 0 0 := by
  rw [nextAfter, findIdx_getLast_of_nodup l hne hnd]
  have hl : 0 < l.length := List.length_pos.mpr hne
  have hmod : (l.length - 1 + 1) % l.length = 0 := by
    have h1 : l.length - 1 + 1 = l.length := by omega
    rw [h1, Nat.mod_self]
  show l.getD ((l.length - 1 + 1) % l.length) 0 = l.getD 0 0
  rw [hmod]

theorem onCall_fold_append (allNames : List Nat) (snap : Nat → Nat → Option OnCallRow) :
    ∀ (keys : List (Nat × Nat)) (st : List OnCallRow × Nat),
      ∃ app, (keys.foldl (onCallStep allNames snap) st).1 = st.1 ++ app := by
  intro keys
  induction keys with
  | nil => exact fun st => ⟨[], by simp⟩
  | cons k keys ih =>
    intro st
    rw [List.foldl_cons]
    rcases hs : snap k.1 k.2 with _ | e
    · have hstep : onCallStep allNames snap st k
          = (st.1 ++ [{ week := k.1, day := k.2, nameId := nextAfter allNames st.2 }],
             nextAfter allNames st.2) := by
        unfold onCallStep
        rw [hs]
      rw [hstep]
      rcases ih (st.1 ++ [{ week := k.1, day := k.2, nameId := nextAfter allNames st.2 }],
        nextAfter allNames st.2) with ⟨app, happ⟩
      refine ⟨[{ week := k.1, day := k.2, nameId := nextAfter allNames st.2 }] ++ app, ?_⟩
      rw [happ, List.append_assoc]
    · have hstep : onCallStep allNames snap st k = (st.1, e.nameId) := by
        unfold onCallStep
        rw [hs]
      rw [hstep]
      exact ih (st.1, e.nameId)

theorem onCallKeys_cons (w0 : Nat) :
    onCallKeys w0 = (w0, 0) :: (([1, 2, 3, 4, 5, 6].map (fun d => (w0, d)))
      ++ ((List.range 51).map (fun i => w0 + (i + 1))).flatMap
           (fun w => (List.range 7).map (fun d => (w, d)))) := by
  unfold onCallKeys WEEKS_TO_GENERATE
  rw [show (52 : Nat) = 51 + 1 from rfl, List.range_succ_eq_map]
  rw [show (List.range 7) = 0 :: [1, 2, 3, 4, 5, 6] from rfl]
  have hfun : ((fun i => w0 + i) ∘ Nat.succ) = fun i => w0 + (i + 1) := by
    funext i
    simp [Function.comp, Nat.succ_eq_add_one]
  simp [List.map_map, hfun]

/-- Claim C7: on an on-call cold start (no persisted rotation pointer and no
on-call entries), the bootstrap pointer is the last roster member's id, whose
rotation successor is the first member — and the first generated slot (first
window week, Sunday) is indeed assigned the first roster member. -/
theorem onCall_coldStart_first_member (allNames : List Nat) (w0 : Nat)
    (hne : allNames ≠ []) (hnd : allNames.Nodup) :
    nextAfter allNames (onCallColdStartPtr allNames) = allNames.getD 0 0 ∧
    onCallLookup ((generateOnCallSchedule [] none w0 allNames).1) w0 0
      = some { week := w0, day := 0, nameId := allNames.getD 0 0 } := by
  have hfirst : nextAfter allNames (onCallColdStartPtr allNames) = allNames.getD 0 0 :=
    nextAfter_getLast allNames hne hnd
  refine ⟨hfirst, ?_⟩
  have hie : allNames.isEmpty = false := by simpa [List.isEmpty_iff] using hne
  unfold generateOnCallSchedule
  rw [hie]
  simp only [Bool.false_eq_true, if_false]
  rw [onCallKeys_cons, List.foldl_cons]
  have hstep : onCallStep allNames (fun w d => onCallLookup [] w d)
      ([], (match onCallMostRecent [] with
            | some e => e.nameId
            | none => onCallColdStartPtr allNames)) (w0, 0)
      = ([{ week := w0, day := 0, nameId := allNames.getD 0 0 }], allNames.getD 0 0) := by
    unfold onCallStep onCallLookup onCallMostRecent
    simp [hfirst]
  rw [hstep]
  rcases onCall_fold_append allNames (fun w d => onCallLookup [] w d) _
      ([{ week := w0, day := 0, nameId := allNames.getD 0 0 }], allNames.getD 0 0)
    with ⟨app, happ⟩
  rw [happ]
  simp [onCallLookup, List.find?_cons]

/-- Witness for `onCall_coldStart_first_member`: roster `[1, 2, 3]` — the
bootstrap pointer is 3 and slot (week 0, sun) is assigned person 1. -/
theorem onCall_coldStart_first_member_witness :
    nextAfter [1, 2, 3] (onCallColdStartPtr [1, 2, 3]) = 1 ∧
    onCallLookup ((generateOnCallSchedule [] none 0 [1, 2, 3]).1) 0 0
      = some { week := 0, day := 0, nameId := 1 } :=
  onCall_coldStart_first_member [1, 2, 3] 0 (by decide) (by decide)

/-! ## Pin latch and one-time original capture (claim C2) -/

theorem foldl_hourlyInsert_filter_edited (d : Nat) (f : Nat → Nat) :
    ∀ (l : List Nat) (acc : List HourlyRow),
      (l.foldl (fun acc t => hourlyInsertOrIgnore acc
          { date := d, time := t, nameId := f t, isEdited := false,
            originalNameId := none, reason := none }) acc).filter (fun r => r.isEdited)
        = acc.filter (fun r => r.isEdited) := by
  intro l
  induction l with
  | nil => intro acc; rfl
  | cons t l ih =>
    intro acc
    rw [List.foldl_cons, ih]
    exact hourlyInsertOrIgnore_filter _ acc _ rfl

/-- `regenerateHourlySchedule` never touches a pinned hourly slot: the pinned
rows of the table are exactly preserved, with all their fields. -/
theorem regenHourly_pinned_frame (h : List HourlyRow) (d fromHour : Nat)
    (hasUser : Bool) (present shuffled : List Nat) :
    (regenerateHourlySchedule h d fromHour hasUser present shuffled).filter (fun r => r.isEdited)
      = h.filter (fun r => r.isEdited) := by
  unfold regenerateHourlySchedule
  rcases (h.any (fun r => r.date == d) && !hasUser) with _ | _
  · simp only [Bool.false_eq_true, if_false]
    have hdel : (hourlyDeleteFrom h d fromHour).filter (fun r => r.isEdited)
        = h.filter (fun r => r.isEdited) := by
      unfold hourlyDeleteFrom
      apply filter_filter_of_imp
      intro r hr
      simp [hr]
    rcases present.isEmpty with _ | _
    · simp only [Bool.false_eq_true, if_false]
      unfold regenHourlyInsert
      rw [foldl_hourlyInsert_filter_edited]
      exact hdel
    · simpa using hdel
  · simp

theorem weeklyReplace_filter_edited (T : List WeeklyRow) (r : WeeklyRow)
    (hr : r.isEdited = false) (hT : ∀ x ∈ T, x.isEdited = true → x.week ≠ r.week) :
    (weeklyReplace T r).filter (fun x => x.isEdited) = T.filter (fun x => x.isEdited) := by
  induction T with
  | nil => rfl
  | cons x T ih =>
    have ihr := ih (fun y hy => hT y (List.mem_cons_of_mem x hy))
    show ((if (x.week == r.week) = true then r else x) :: weeklyReplace T r).filter
        (fun z => z.isEdited) = (x :: T).filter (fun z => z.isEdited)
    rcases hx : (x.week == r.week) with _ | _
    · rw [if_neg (by simp [hx]), List.filter_cons, List.filter_cons]
      rcases he : x.isEdited with _ | _
      · simp only [he, Bool.false_eq_true, if_false]
        exact ihr
      · simp only [he, if_true]
        rw [ihr]
    · have hxw : x.week = r.week := by simpa using hx
      have hxe : x.isEdited = false := by
        rcases he : x.isEdited with _ | _
        · rfl
        · exact absurd hxw (hT x (List.mem_cons_self x T) he)
      rw [if_pos (by simp [hx]), List.filter_cons, List.filter_cons, hr, hxe]
      simp only [Bool.false_eq_true, if_false]
      exact ihr

theorem weeklyUpsert_filter_edited (T : List WeeklyRow) (r : WeeklyRow)
    (hr : r.isEdited = false) (hT : ∀ x ∈ T, x.isEdited = true → x.week ≠ r.week) :
    (weeklyUpsertReplace T r).filter (fun x => x.isEdited) = T.filter (fun x => x.isEdited) := by
  unfold weeklyUpsertReplace
  rcases T.any (fun x => x.week == r.week) with _ | _
  · simp only [Bool.false_eq_true, if_false]
    exact filter_append_single_neg _ T r hr
  · simp only [if_true]
    exact weeklyReplace_filter_edited T r hr hT

theorem mem_of_filter_edited_eq {T tbl : List WeeklyRow}
    (hinv : T.filter (fun x => x.isEdited) = tbl.filter (fun x => x.isEdited))
    {x : WeeklyRow} (hx : x ∈ T) (he : x.isEdited = true) : x ∈ tbl := by
  have h1 : x ∈ T.filter (fun x => x.isEdited) := List.mem_filter.mpr ⟨hx, he⟩
  rw [hinv] at h1
  exact (List.mem_filter.mp h1).1

theorem foldl_weeklyStep1_filter_edited (allNames : List Nat) (tbl : List WeeklyRow) :
    ∀ (l : List Nat) (st : List WeeklyRow × Option Nat),
      st.1.filter (fun x => x.isEdited) = tbl.filter (fun x => x.isEdited) →
      ((l.foldl (weeklyStep1 allNames (weeklyEditedLookup tbl)) st).1).filter
          (fun x => x.isEdited)
        = tbl.filter (fun x => x.isEdited) := by
  intro l
  induction l with
  | nil => intro st hinv; exact hinv
  | cons wk l ih =>
    intro st hinv
    rw [List.foldl_cons]
    apply ih
    unfold weeklyStep1
    rcases hem : weeklyEditedLookup tbl wk with _ | er
    · rcases hcn : weeklyComputeNext allNames st.2 with _ | nid
      · exact hinv
      · show (weeklyUpsertReplace st.1 (weeklyAutoRow wk nid)).filter (fun x => x.isEdited) = _
        rw [weeklyUpsert_filter_edited st.1 (weeklyAutoRow wk nid) rfl]
        · exact hinv
        · intro x hx he
          have hxt : x ∈ tbl := mem_of_filter_edited_eq hinv hx he
          have := List.find?_eq_none.mp hem x hxt
          simp only [he, Bool.true_and] at this
          simpa [weeklyAutoRow] using this
    · rcases hb : (!er.isOffWeek && er.nameId.isSome) with _ | _ <;> simpa [hb] using hinv

/-- `regenerateWeeklyDuty` (first iteration) never touches a pinned week. -/
theorem regenWeekly1_pinned_frame (tbl : List WeeklyRow) (w0 : Nat) (allNames : List Nat) :
    (regenerateWeeklyDuty1 tbl w0 allNames).filter (fun x => x.isEdited)
      = tbl.filter (fun x => x.isEdited) := by
  unfold regenerateWeeklyDuty1
  rcases allNames.isEmpty with _ | _
  · simp only [Bool.false_eq_true, if_false]
    exact foldl_weeklyStep1_filter_edited allNames tbl (weeklyWindow w0) _ rfl
  · simp

theorem foldl_weeklyStep2_filter_edited (allNames : List Nat) (tbl : List WeeklyRow)
    (am : Nat → Option WeeklyRow) :
    ∀ (l : List Nat) (st : List WeeklyRow × Option Nat),
      st.1.filter (fun x => x.isEdited) = tbl.filter (fun x => x.isEdited) →
      ((l.foldl (weeklyStep2 allNames (weeklyEditedLookup tbl) am) st).1).filter
          (fun x => x.isEdited)
        = tbl.filter (fun x => x.isEdited) := by
  intro l
  induction l with
  | nil => intro st hinv; exact hinv
  | cons wk l ih =>
    intro st hinv
    rw [List.foldl_cons]
    apply ih
    have hT : weeklyEditedLookup tbl wk = none →
        ∀ x ∈ st.1, x.isEdited = true → x.week ≠ (weeklyAutoRow wk 0).week := by
      intro hem x hx he
      have hxt : x ∈ tbl := mem_of_filter_edited_eq hinv hx he
      have := List.find?_eq_none.mp hem x hxt
      simp only [he, Bool.true_and] at this
      simpa [weeklyAutoRow] using this
    unfold weeklyStep2
    rcases hem : weeklyEditedLookup tbl wk with _ | er
    · rcases ham : am wk with _ | ar
      · rcases hcn : weeklyComputeNext allNames st.2 with _ | nid
        · exact hinv
        · show (st.1 ++ [weeklyAutoRow wk nid]).filter (fun x => x.isEdited) = _
          rw [filter_append_single_neg _ st.1 (weeklyAutoRow wk nid) rfl]
          exact hinv
      · rcases hb : (!ar.isEdited && ar.nameId.isSome && !ar.isOffWeek) with _ | _
        · rcases hcn : weeklyComputeNext allNames st.2 with _ | nid
          · simpa [hb] using hinv
          · simp only [hb, Bool.false_eq_true, if_false, hcn]
            show (weeklyReplace st.1 (weeklyAutoRow wk nid)).filter (fun x => x.isEdited) = _
            rw [weeklyReplace_filter_edited st.1 (weeklyAutoRow wk nid) rfl
              (fun x hx he => hT hem x hx he)]
            exact hinv
        · simpa [hb] using hinv
    · rcases hb : (!er.isOffWeek && er.nameId.isSome) with _ | _ <;> simpa [hb] using hinv

/-- `regenerateWeeklyDuty` (later iteration) never touches a pinned week. -/
theorem regenWeekly2_pinned_frame (tbl : List WeeklyRow) (w0 : Nat) (allNames : List Nat) :
    (regenerateWeeklyDuty2 tbl w0 allNames).filter (fun x => x.isEdited)
      = tbl.filter (fun x => x.isEdited) := by
  unfold regenerateWeeklyDuty2
  rcases allNames.isEmpty with _ | _
  · simp only [Bool.false_eq_true, if_false]
    exact foldl_weeklyStep2_filter_edited allNames tbl (weeklyAnyLookup tbl)
      (weeklyWindow w0) _ rfl
  · simp

theorem find?_and_eq_find?_filter {α : Type} (p q : α → Bool) (l : List α) :
    l.find? (fun a => p a && q a) = (l.filter p).find? q := by
  induction l with
  | nil => rfl
  | cons a l ih =>
    rcases hp : p a with _ | _
    · simp only [List.filter_cons, hp, Bool.false_eq_true, if_false, List.find?_cons,
        Bool.false_and]
      exact ih
    · rcases hq : q a with _ | _
      · have hc : (p a && q a) = false := by rw [hp, hq]; rfl
        simp only [List.filter_cons, hp, if_true, List.find?_cons, hc, hq]
        exact ih
      · have hc : (p a && q a) = true := by rw [hp, hq]; rfl
        simp [List.filter_cons, hp, List.find?_cons, hc, hq]

theorem editedLookup_eq_of_filter_eq (T1 T2 : List WeeklyRow)
    (h : T1.filter (fun x => x.isEdited) = T2.filter (fun x => x.isEdited)) (wk : Nat) :
    weeklyEditedLookup T1 wk = weeklyEditedLookup T2 wk := by
  unfold weeklyEditedLookup
  rw [find?_and_eq_find?_filter (fun r => r.isEdited) (fun r => r.week == wk) T1,
    find?_and_eq_find?_filter (fun r => r.isEdited) (fun r => r.week == wk) T2, h]

theorem regenWeekly1_editedLookup (tbl : List WeeklyRow) (w0 : Nat) (allNames : List Nat)
    (wk : Nat) :
    weeklyEditedLookup (regenerateWeeklyDuty1 tbl w0 allNames) wk = weeklyEditedLookup tbl wk :=
  editedLookup_eq_of_filter_eq _ _ (regenWeekly1_pinned_frame tbl w0 allNames) wk

theorem regenWeekly2_editedLookup (tbl : List WeeklyRow) (w0 : Nat) (allNames : List Nat)
    (wk : Nat) :
    weeklyEditedLookup (regenerateWeeklyDuty2 tbl w0 allNames) wk = weeklyEditedLookup tbl wk :=
  editedLookup_eq_of_filter_eq _ _ (regenWeekly2_pinned_frame tbl w0 allNames) wk

/-- The hourly override on an existing slot: the slot becomes pinned, keeps its
key, and the original occupant is captured only if it was not already pinned. -/
theorem overrideHourly_found (h : List HourlyRow) (d t nid rs : Nat) (row : HourlyRow)
    (hfind : h.find? (fun r => r.date == d && r.time == t) = some row) :
    (overrideHourlySlot h d t nid rs).find? (fun r => r.date == d && r.time == t)
      = some { row with
          nameId := nid,
          reason := some rs,
          originalNameId := if row.isEdited then row.originalNameId else some row.nameId,
          isEdited := true } := by
  unfold overrideHourlySlot
  rw [hfind]
  rw [find?_map_of_pred]
  · rw [hfind]
    have hkey0 := List.find?_some hfind
    have hkey : (row.date == d && row.time == t) = true := hkey0
    show some (if (row.date == d && row.time == t) = true then
        { row with
          nameId := nid,
          reason := some rs,
          originalNameId := if row.isEdited then row.originalNameId else some row.nameId,
          isEdited := true }
      else row) = _
    rw [if_pos hkey]
  · intro a
    rcases ha : (a.date == d && a.time == t) with _ | _ <;> simp [ha]

/-- The hourly override on a missing slot: a new pinned row is inserted with no
original occupant (none existed at pin time). -/
theorem overrideHourly_missing (h : List HourlyRow) (d t nid rs : Nat)
    (hfind : h.find? (fun r => r.date == d && r.time == t) = none) :
    (overrideHourlySlot h d t nid rs).find? (fun r => r.date == d && r.time == t)
      = some { date := d, time := t, nameId := nid, isEdited := true,
               originalNameId := none, reason := some rs } := by
  unfold overrideHourlySlot
  rw [hfind]
  rw [find?_append_none _ _ _ hfind]
  rw [List.find?_cons]
  simp

/-- The hourly override touches no other slot. -/
theorem overrideHourly_other (h : List HourlyRow) (d t nid rs : Nat) :
    (overrideHourlySlot h d t nid rs).filter (fun r => !(r.date == d && r.time == t))
      = h.filter (fun r => !(r.date == d && r.time == t)) := by
  unfold overrideHourlySlot
  rcases hfind : h.find? (fun r => r.date == d && r.time == t) with _ | row
  · rw [hfind]
    apply filter_append_single_neg
    simp
  · rw [hfind]
    apply filter_map_of_pred
    · intro a ha
      have : (a.date == d && a.time == t) = false := by
        rcases hk : (a.date == d && a.time == t) with _ | _
        · rfl
        · rw [hk] at ha
          simp at ha
      rw [this]
      simp
    · intro a
      rcases ha : (a.date == d && a.time == t) with _ | _ <;> simp [ha]

theorem find?_edited_map_upd (tbl : List WeeklyRow) (w : Nat) (upd : WeeklyRow → WeeklyRow)
    (row : WeeklyRow)
    (hfind : tbl.find? (fun r => r.week == w) = some row)
    (hweek : ∀ r, (upd r).week = r.week)
    (hed : ∀ r, (upd r).isEdited = true) :
    (tbl.map (fun r => if (r.week == w) = true then upd r else r)).find?
        (fun r => r.isEdited && r.week == w) = some (upd row) := by
  induction tbl with
  | nil => simp at hfind
  | cons x tbl ih =>
    rcases hx : (x.week == w) with _ | _
    · have hfind2 : tbl.find? (fun r => r.week == w) = some row := by
        rw [List.find?_cons, hx] at hfind
        exact hfind
      simp only [List.map_cons, hx, Bool.false_eq_true, if_false, List.find?_cons,
        Bool.and_false]
      exact ih hfind2
    · have hrow : x = row := by
        rw [List.find?_cons, hx] at hfind
        exact Option.some.inj hfind
      subst hrow
      have hpu : ((upd x).isEdited && ((upd x).week == w)) = true := by
        simp [hed x, hweek x, hx]
      simp only [List.map_cons, hx, if_true, List.find?_cons, hpu]

theorem editedLookup_map_upd_ne (tbl : List WeeklyRow) (w wk : Nat)
    (upd : WeeklyRow → WeeklyRow)
    (hweek : ∀ r, (upd r).week = r.week)
    (hne : wk ≠ w) :
    (tbl.map (fun r => if (r.week == w) = true then upd r else r)).find?
        (fun r => r.isEdited && r.week == wk)
      = tbl.find? (fun r => r.isEdited && r.week == wk) := by
  have hpred : ∀ a : WeeklyRow,
      ((if (a.week == w) = true then upd a else a).isEdited
        && ((if (a.week == w) = true then upd a else a).week == wk))
        = (a.isEdited && (a.week == wk)) := by
    intro a
    rcases ha : (a.week == w) with _ | _
    · simp [ha]
    · have haw : a.week = w := by simpa using ha
      have h1 : ((upd a).week == wk) = false := by
        rw [beq_eq_false_iff_ne, hweek a, haw]
        exact fun hc => hne hc.symm
      have h2 : (a.week == wk) = false := by
        rw [beq_eq_false_iff_ne, haw]
        exact fun hc => hne hc.symm
      simp [ha, h1, h2]
  rw [find?_map_of_pred _ _ _ hpred]
  rcases hf : tbl.find? (fun r => r.isEdited && r.week == wk) with _ | y
  · rw [hf]
    rfl
  · rw [hf]
    have hy0 := List.find?_some hf
    have hy : (y.isEdited && (y.week == wk)) = true := hy0
    have hyw : y.week = wk := by
      have := hy
      simp at this
      exact this.2
    have hyne : (y.week == w) = false := by
      rw [beq_eq_false_iff_ne, hyw]
      exact hne
    simp [hyne]
    intro hc
    exact absurd (hyw.symm.trans hc) hne

theorem overrideWeekly1_pinned (tbl : List WeeklyRow) (allNames : List Nat)
    (w nid : Nat) (off : Bool) (rs : Nat) (row : WeeklyRow)
    (hfind : weeklyAnyLookup tbl w = some row) :
    weeklyEditedLookup (overrideWeeklyDuty1 tbl allNames w nid off rs) w
      = some { row with
          nameId := if off then none else some nid,
          reason := some rs,
          originalNameId := if row.isEdited then row.originalNameId else row.nameId,
          isEdited := true,
          isOffWeek := off } := by
  unfold overrideWeeklyDuty1
  rw [regenWeekly1_editedLookup]
  unfold weeklyEditedLookup
  rw [find?_filter_of_imp]
  · unfold weeklyPinStage1
    rw [hfind]
    exact find?_edited_map_upd tbl w _ row hfind (fun r => rfl) (fun r => rfl)
  · intro a ha
    have hae : a.isEdited = true := by
      have := ha
      simp at this
      exact this.1
    simp [hae]

theorem overrideWeekly1_other (tbl : List WeeklyRow) (allNames : List Nat)
    (w nid : Nat) (off : Bool) (rs : Nat) (wk : Nat) (hne : wk ≠ w) :
    weeklyEditedLookup (overrideWeeklyDuty1 tbl allNames w nid off rs) wk
      = weeklyEditedLookup tbl wk := by
  unfold overrideWeeklyDuty1
  rw [regenWeekly1_editedLookup]
  unfold weeklyEditedLookup
  rw [find?_filter_of_imp]
  · unfold weeklyPinStage1
    rcases hfind : weeklyAnyLookup tbl w with _ | row
    · apply find?_append_single_neg
      have : (w == wk) = false := by
        rw [beq_eq_false_iff_ne]
        exact fun hc => hne hc.symm
      simp [this]
    · exact editedLookup_map_upd_ne tbl w wk _ (fun r => rfl) hne
  · intro a ha
    have hae : a.isEdited = true := by
      have := ha
      simp at this
      exact this.1
    simp [hae]

theorem overrideWeekly2_pinned (tbl : List WeeklyRow) (allNames : List Nat)
    (w nid : Nat) (off : Bool) (rs : Nat) (row : WeeklyRow)
    (hfind : weeklyAnyLookup tbl w = some row) :
    weeklyEditedLookup (overrideWeeklyDuty2 tbl allNames w nid off rs) w
      = some { row with
          nameId := if off then none else some nid,
          reason := some rs,
          originalNameId :=
            if !row.isEdited && row.nameId != (if off then none else some nid) then row.nameId
            else if row.isEdited then row.originalNameId
            else none,
          isEdited := true,
          isOffWeek := off } := by
  have hstage : weeklyEditedLookup (weeklyPinStage2 tbl w nid off rs) w
      = some { row with
          nameId := if off then none else some nid,
          reason := some rs,
          originalNameId :=
            if !row.isEdited && row.nameId != (if off then none else some nid) then row.nameId
            else if row.isEdited then row.originalNameId
            else none,
          isEdited := true,
          isOffWeek := off } := by
    unfold weeklyPinStage2
    rw [hfind]
    exact find?_edited_map_upd tbl w _ row hfind (fun r => rfl) (fun r => rfl)
  unfold overrideWeeklyDuty2
  rcases hoff : (weeklyOldOff tbl w != off) with _ | _
  · simpa using hstage
  · simp only [if_true]
    rw [regenWeekly2_editedLookup]
    unfold weeklyEditedLookup
    rw [find?_filter_of_imp]
    · exact hstage
    · intro a ha
      have hae : a.isEdited = true := by
        have := ha
        simp at this
        exact this.1
      simp [hae]

theorem overrideWeekly2_other (tbl : List WeeklyRow) (allNames : List Nat)
    (w nid : Nat) (off : Bool) (rs : Nat) (wk : Nat) (hne : wk ≠ w) :
    weeklyEditedLookup (overrideWeeklyDuty2 tbl allNames w nid off rs) wk
      = weeklyEditedLookup tbl wk := by
  have hstage : weeklyEditedLookup (weeklyPinStage2 tbl w nid off rs) wk
      = weeklyEditedLookup tbl wk := by
    unfold weeklyPinStage2
    rcases hfind : weeklyAnyLookup tbl w with _ | row
    · apply find?_append_single_neg
      have : (w == wk) = false := by
        rw [beq_eq_false_iff_ne]
        exact fun hc => hne hc.symm
      simp [this]
    · exact editedLookup_map_upd_ne tbl w wk _ (fun r => rfl) hne
  unfold overrideWeeklyDuty2
  rcases hoff : (weeklyOldOff tbl w != off) with _ | _
  · simpa using hstage
  · simp only [if_true]
    rw [regenWeekly2_editedLookup]
    unfold weeklyEditedLookup
    rw [find?_filter_of_imp]
    · exact hstage
    · intro a ha
      have hae : a.isEdited = true := by
        have := ha
        simp at this
        exact this.1
      simp [hae]

/-- Claim C2 counterexample: in the later iteration's weekly override, pinning
an unpinned week to the occupant it already has (person 3) leaves
`originalNameId = none`, although an occupant (person 3) existed at the moment
of the first pin — the claim's "set to whatever occupant existed at that
moment" fails. -/
theorem pin_originalOccupant_counterexample :
    weeklyAnyLookup [(⟨10, some 3, false, false, none, none, 11⟩ : WeeklyRow)] 10
        = some (⟨10, some 3, false, false, none, none, 11⟩ : WeeklyRow) ∧
    weeklyAnyLookup
        (overrideWeeklyDuty2 [(⟨10, some 3, false, false, none, none, 11⟩ : WeeklyRow)]
          [1, 2, 3] 10 3 false 7) 10
      = some (⟨10, some 3, true, false, none, some 7, 11⟩ : WeeklyRow) := by
  decide

/-- Claim C2 (amended): once a slot is pinned it never reverts, and no
regeneration pass ever changes a pinned slot's fields (conjuncts 1–3: the
pinned rows of the hourly and weekly tables are preserved verbatim by every
regenerator).  Overriding pins the touched slot and captures the original
occupant exactly once: the hourly override and the `backend/index.js` weekly
override capture the occupant that existed at the first pin (none for a
newly-created slot) and keep the stored original on later re-pins (conjuncts
4–7), and both weekly overrides leave every other week's pinned row untouched
(conjuncts 8, 10); the later iteration's weekly override (conjunct 9) captures
the pre-pin occupant only when the occupant actually changes, leaving
`originalNameId` null when an unpinned week is pinned to its current
occupant — the one deviation from the claim as stated. -/
theorem pin_latch_and_capture :
    (∀ (h : List HourlyRow) (d fromHour : Nat) (hasUser : Bool) (present shuffled : List Nat),
      (regenerateHourlySchedule h d fromHour hasUser present shuffled).filter
          (fun r => r.isEdited)
        = h.filter (fun r => r.isEdited)) ∧
    (∀ (tbl : List WeeklyRow) (w0 : Nat) (allNames : List Nat),
      (regenerateWeeklyDuty1 tbl w0 allNames).filter (fun x => x.isEdited)
        = tbl.filter (fun x => x.isEdited)) ∧
    (∀ (tbl : List WeeklyRow) (w0 : Nat) (allNames : List Nat),
      (regenerateWeeklyDuty2 tbl w0 allNames).filter (fun x => x.isEdited)
        = tbl.filter (fun x => x.isEdited)) ∧
    (∀ (h : List HourlyRow) (d t nid rs : Nat) (row : HourlyRow),
      h.find? (fun r => r.date == d && r.time == t) = some row →
      (overrideHourlySlot h d t nid rs).find? (fun r => r.date == d && r.time == t)
        = some { row with
            nameId := nid,
            reason := some rs,
            originalNameId := if row.isEdited then row.originalNameId else some row.nameId,
            isEdited := true }) ∧
    (∀ (h : List HourlyRow) (d t nid rs : Nat),
      h.find? (fun r => r.date == d && r.time == t) = none →
      (overrideHourlySlot h d t nid rs).find? (fun r => r.date == d && r.time == t)
        = some { date := d, time := t, nameId := nid, isEdited := true,
                 originalNameId := none, reason := some rs }) ∧
    (∀ (h : List HourlyRow) (d t nid rs : Nat),
      (overrideHourlySlot h d t nid rs).filter (fun r => !(r.date == d && r.time == t))
        = h.filter (fun r => !(r.date == d && r.time == t))) ∧
    (∀ (tbl : List WeeklyRow) (allNames : List Nat) (w nid : Nat) (off : Bool) (rs : Nat)
        (row : WeeklyRow),
      weeklyAnyLookup tbl w = some row →
      weeklyEditedLookup (overrideWeeklyDuty1 tbl allNames w nid off rs) w
        = some { row with
            nameId := if off then none else some nid,
            reason := some rs,
            originalNameId := if row.isEdited then row.originalNameId else row.nameId,
            isEdited := true,
            isOffWeek := off }) ∧
    (∀ (tbl : List WeeklyRow) (allNames : List Nat) (w nid : Nat) (off : Bool) (rs : Nat)
        (wk : Nat), wk ≠ w →
      weeklyEditedLookup (overrideWeeklyDuty1 tbl allNames w nid off rs) wk
        = weeklyEditedLookup tbl wk) ∧
    (∀ (tbl : List WeeklyRow) (allNames : List Nat) (w nid : Nat) (off : Bool) (rs : Nat)
        (row : WeeklyRow),
      weeklyAnyLookup tbl w = some row →
      weeklyEditedLookup (overrideWeeklyDuty2 tbl allNames w nid off rs) w
        = some { row with
            nameId := if off then none else some nid,
            reason := some rs,
            originalNameId :=
              if !row.isEdited && row.nameId != (if off then none else some nid) then row.nameId
              else if row.isEdited then row.originalNameId
              else none,
            isEdited := true,
            isOffWeek := off }) ∧
    (∀ (tbl : List WeeklyRow) (allNames : List Nat) (w nid : Nat) (off : Bool) (rs : Nat)
        (wk : Nat), wk ≠ w →
      weeklyEditedLookup (overrideWeeklyDuty2 tbl allNames w nid off rs) wk
        = weeklyEditedLookup tbl wk) :=
  ⟨regenHourly_pinned_frame, regenWeekly1_pinned_frame, regenWeekly2_pinned_frame,
   overrideHourly_found, overrideHourly_missing, overrideHourly_other,
   overrideWeekly1_pinned, overrideWeekly1_other, overrideWeekly2_pinned,
   overrideWeekly2_other⟩

/-- Witness for `pin_latch_and_capture`: pinning the existing unpinned hourly
slot (date 0, hour 8, occupant 5) to occupant 7 pins it and captures
original occupant 5. -/
theorem pin_latch_and_capture_witness :
    ([(⟨0, 8, 5, false, none, none⟩ : HourlyRow)].find?
        (fun r => r.date == 0 && r.time == 8)
      = some (⟨0, 8, 5, false, none, none⟩ : HourlyRow)) ∧
    (overrideHourlySlot [(⟨0, 8, 5, false, none, none⟩ : HourlyRow)] 0 8 7 3).find?
        (fun r => r.date == 0 && r.time == 8)
      = some (⟨0, 8, 7, true, some 5, some 3⟩ : HourlyRow) :=
  ⟨by decide,
   pin_latch_and_capture.2.2.2.1 [(⟨0, 8, 5, false, none, none⟩ : HourlyRow)] 0 8 7 3
     (⟨0, 8, 5, false, none, none⟩ : HourlyRow) (by decide)⟩

/-! ## Weekly override downstream behaviour (claim C4) -/

theorem mem_weeklyReplace (T : List WeeklyRow) (r x : WeeklyRow)
    (hx : x ∈ weeklyReplace T r) : x ∈ T ∨ x = r := by
  rcases List.mem_map.mp hx with ⟨y, hy, hgy⟩
  by_cases hw : (y.week == r.week) = true
  · right
    rw [← hgy]
    simp [hw]
  · left
    have : x = y := by
      rw [← hgy]
      simp [hw]
    rw [this]
    exact hy

theorem mem_weeklyUpsert (T : List WeeklyRow) (r x : WeeklyRow)
    (hx : x ∈ weeklyUpsertReplace T r) : x ∈ T ∨ x = r := by
  unfold weeklyUpsertReplace at hx
  rcases ha : T.any (fun y => y.week == r.week) with _ | _
  · rw [ha] at hx
    simp only [Bool.false_eq_true, if_false] at hx
    rcases List.mem_append.mp hx with h | h
    · exact Or.inl h
    · exact Or.inr (by simpa using h)
  · rw [ha] at hx
    simp only [if_true] at hx
    exact mem_weeklyReplace T r x hx

/-- Rows the first iteration's rotator writes are automatic: unpinned,
non-off, with no original occupant, no reason and a real occupant. -/
def weeklyAutoShaped (r : WeeklyRow) : Prop :=
  r.isEdited = false ∧ r.isOffWeek = false ∧ r.originalNameId = none ∧
    r.reason = none ∧ r.nameId.isSome = true

theorem weeklyAutoRow_shaped (wk nid : Nat) : weeklyAutoShaped (weeklyAutoRow wk nid) :=
  ⟨rfl, rfl, rfl, rfl, rfl⟩

theorem foldl_weeklyStep1_mem (allNames : List Nat) (em : Nat → Option WeeklyRow)
    (P : WeeklyRow → Prop) (hauto : ∀ wk nid, P (weeklyAutoRow wk nid)) :
    ∀ (l : List Nat) (st : List WeeklyRow × Option Nat), (∀ x ∈ st.1, P x) →
      ∀ x ∈ ((l.foldl (weeklyStep1 allNames em) st).1), P x := by
  intro l
  induction l with
  | nil => intro st hst; exact hst
  | cons wk l ih =>
    intro st hst
    rw [List.foldl_cons]
    apply ih
    unfold weeklyStep1
    rcases hem : em wk with _ | er
    · rcases hcn : weeklyComputeNext allNames st.2 with _ | nid
      · exact hst
      · intro x hx
        rcases mem_weeklyUpsert st.1 (weeklyAutoRow wk nid) x hx with h | h
        · exact hst x h
        · rw [h]
          exact hauto wk nid
    · rcases hb : (!er.isOffWeek && er.nameId.isSome) with _ | _ <;> simpa [hb] using hst

theorem regenWeekly1_mem (tbl : List WeeklyRow) (w0 : Nat) (allNames : List Nat) :
    ∀ r ∈ regenerateWeeklyDuty1 tbl w0 allNames, r ∈ tbl ∨ weeklyAutoShaped r := by
  unfold regenerateWeeklyDuty1
  rcases allNames.isEmpty with _ | _
  · simp only [Bool.false_eq_true, if_false]
    exact foldl_weeklyStep1_mem allNames _ _ (fun wk nid => Or.inr (weeklyAutoRow_shaped wk nid))
      (weeklyWindow w0) _ (fun x hx => Or.inl hx)
  · simp only [if_true]
    exact fun r hr => Or.inl hr

theorem foldl_weeklyStep2_mem (allNames : List Nat) (em am : Nat → Option WeeklyRow)
    (P : WeeklyRow → Prop) (hauto : ∀ wk nid, P (weeklyAutoRow wk nid)) :
    ∀ (l : List Nat) (st : List WeeklyRow × Option Nat), (∀ x ∈ st.1, P x) →
      ∀ x ∈ ((l.foldl (weeklyStep2 allNames em am) st).1), P x := by
  intro l
  induction l with
  | nil => intro st hst; exact hst
  | cons wk l ih =>
    intro st hst
    rw [List.foldl_cons]
    apply ih
    unfold weeklyStep2
    rcases hem : em wk with _ | er
    · rcases ham : am wk with _ | ar
      · rcases hcn : weeklyComputeNext allNames st.2 with _ | nid
        · exact hst
        · intro x hx
          rcases List.mem_append.mp hx with h | h
          · exact hst x h
          · have : x = weeklyAutoRow wk nid := by simpa using h
            rw [this]
            exact hauto wk nid
      · rcases hb : (!ar.isEdited && ar.nameId.isSome && !ar.isOffWeek) with _ | _
        · rcases hcn : weeklyComputeNext allNames st.2 with _ | nid
          · simpa [hb] using hst
          · simp only [hb, Bool.false_eq_true, if_false, hcn]
            intro x hx
            rcases mem_weeklyReplace st.1 (weeklyAutoRow wk nid) x hx with h | h
            · exact hst x h
            · rw [h]
              exact hauto wk nid
        · simpa [hb] using hst
    · rcases hb : (!er.isOffWeek && er.nameId.isSome) with _ | _ <;> simpa [hb] using hst

theorem regenWeekly2_mem (tbl : List WeeklyRow) (w0 : Nat) (allNames : List Nat) :
    ∀ r ∈ regenerateWeeklyDuty2 tbl w0 allNames, r ∈ tbl ∨ weeklyAutoShaped r := by
  unfold regenerateWeeklyDuty2
  rcases allNames.isEmpty with _ | _
  · simp only [Bool.false_eq_true, if_false]
    exact foldl_weeklyStep2_mem allNames _ _ _
      (fun wk nid => Or.inr (weeklyAutoRow_shaped wk nid))
      (weeklyWindow w0) _ (fun x hx => Or.inl hx)
  · simp only [if_true]
    exact fun r hr => Or.inl hr

theorem mem_weeklyPinStage1_of_ne (tbl : List WeeklyRow) (w nid : Nat) (off : Bool)
    (rs : Nat) (r : WeeklyRow) (hr : r ∈ weeklyPinStage1 tbl w nid off rs)
    (hne : r.week ≠ w) : r ∈ tbl := by
  unfold weeklyPinStage1 at hr
  rcases hf : weeklyAnyLookup tbl w with _ | row
  · rw [hf] at hr
    rcases List.mem_append.mp hr with h | h
    · exact h
    · have hx := List.mem_singleton.mp h
      have : r.week = w := by rw [hx]
      exact absurd this hne
  · rw [hf] at hr
    rcases List.mem_map.mp hr with ⟨y, hy, hgy⟩
    by_cases hw : (y.week == w) = true
    · have : r.week = w := by
        rw [← hgy]
        simp [hw]
        simpa using hw
      exact absurd this hne
    · have : r = y := by
        rw [← hgy]
        simp [hw]
      rw [this]
      exact hy

theorem mem_weeklyPinStage2_of_ne (tbl : List WeeklyRow) (w nid : Nat) (off : Bool)
    (rs : Nat) (r : WeeklyRow) (hr : r ∈ weeklyPinStage2 tbl w nid off rs)
    (hne : r.week ≠ w) : r ∈ tbl := by
  unfold weeklyPinStage2 at hr
  rcases hf : weeklyAnyLookup tbl w with _ | row
  · rw [hf] at hr
    rcases List.mem_append.mp hr with h | h
    · exact h
    · have hx := List.mem_singleton.mp h
      have : r.week = w := by rw [hx]
      exact absurd this hne
  · rw [hf] at hr
    rcases List.mem_map.mp hr with ⟨y, hy, hgy⟩
    by_cases hw : (y.week == w) = true
    · have : r.week = w := by
        rw [← hgy]
        simp [hw]
        simpa using hw
      exact absurd this hne
    · have : r = y := by
        rw [← hgy]
        simp [hw]
      rw [this]
      exact hy

theorem weeklyPinStage2_other_filter (tbl : List WeeklyRow) (w nid : Nat) (off : Bool)
    (rs : Nat) :
    (weeklyPinStage2 tbl w nid off rs).filter (fun r => !(r.week == w))
      = tbl.filter (fun r => !(r.week == w)) := by
  unfold weeklyPinStage2
  rcases hf : weeklyAnyLookup tbl w with _ | row
  · apply filter_append_single_neg
    simp
  · apply filter_map_of_pred
    · intro a ha
      have : (a.week == w) = false := by
        rcases hk : (a.week == w) with _ | _
        · rfl
        · rw [hk] at ha
          simp at ha
      rw [this]
      simp
    · intro a
      rcases ha : (a.week == w) with _ | _ <;> simp [ha]

theorem overrideWeekly2_unchanged_frame (tbl : List WeeklyRow) (allNames : List Nat)
    (w nid : Nat) (off : Bool) (rs : Nat) (hoff : weeklyOldOff tbl w = off) :
    (overrideWeeklyDuty2 tbl allNames w nid off rs).filter (fun r => !(r.week == w))
      = tbl.filter (fun r => !(r.week == w)) := by
  unfold overrideWeeklyDuty2
  have hcond : (weeklyOldOff tbl w != off) = false := by simp [hoff]
  rw [hcond]
  simp only [Bool.false_eq_true, if_false]
  exact weeklyPinStage2_other_filter tbl w nid off rs

theorem overrideWeekly2_changed_downstream (tbl : List WeeklyRow) (allNames : List Nat)
    (w nid : Nat) (off : Bool) (rs : Nat) (hoff : weeklyOldOff tbl w ≠ off) :
    ∀ r ∈ overrideWeeklyDuty2 tbl allNames w nid off rs, w < r.week →
      (r.isEdited = true ∧ r ∈ tbl) ∨ weeklyAutoShaped r := by
  intro r hr hlt
  unfold overrideWeeklyDuty2 at hr
  have hcond : (weeklyOldOff tbl w != off) = true := by simpa using hoff
  rw [hcond] at hr
  simp only [if_true] at hr
  rcases regenWeekly2_mem _ w allNames r hr with h | h
  · have hmem := List.mem_filter.mp h
    have hkeep := hmem.2
    have hed : r.isEdited = true := by
      rcases he : r.isEdited with _ | _
      · rw [he] at hkeep
        simp [hlt] at hkeep
      · rfl
    have hne : r.week ≠ w := by omega
    exact Or.inl ⟨hed, mem_weeklyPinStage2_of_ne tbl w nid off rs r hmem.1 hne⟩
  · exact Or.inr h

theorem overrideWeekly1_downstream (tbl : List WeeklyRow) (allNames : List Nat)
    (w nid : Nat) (off : Bool) (rs : Nat) :
    ∀ r ∈ overrideWeeklyDuty1 tbl allNames w nid off rs, w < r.week →
      (r.isEdited = true ∧ r ∈ tbl) ∨ weeklyAutoShaped r := by
  intro r hr hlt
  unfold overrideWeeklyDuty1 at hr
  rcases regenWeekly1_mem _ w allNames r hr with h | h
  · have hmem := List.mem_filter.mp h
    have hkeep := hmem.2
    have hed : r.isEdited = true := by
      rcases he : r.isEdited with _ | _
      · rw [he] at hkeep
        have hle : w ≤ r.week := by omega
        simp [hle] at hkeep
      · rfl
    have hne : r.week ≠ w := by omega
    exact Or.inl ⟨hed, mem_weeklyPinStage1_of_ne tbl w nid off rs r hmem.1 hne⟩
  · exact Or.inr h

set_option maxRecDepth 10000 in
/-- Claim C4 counterexample: with week 10 pinned to person 1 and automatic
weeks 11 (person 2) and 12 (person 3), overriding week 10 to person 3 keeps
the off-week status unchanged (`false` before and after), yet the
`backend/index.js` override rewrites week 11 from person 2 to person 1 —
downstream weeks are not left untouched when the off-week status is unchanged. -/
theorem weeklyOverride_downstream_counterexample :
    weeklyOldOff [(⟨10, some 1, true, false, none, some 0, 11⟩ : WeeklyRow),
        weeklyAutoRow 11 2, weeklyAutoRow 12 3] 10 = false ∧
    weeklyAnyLookup [(⟨10, some 1, true, false, none, some 0, 11⟩ : WeeklyRow),
        weeklyAutoRow 11 2, weeklyAutoRow 12 3] 11 = some (weeklyAutoRow 11 2) ∧
    weeklyAnyLookup
        (overrideWeeklyDuty1 [(⟨10, some 1, true, false, none, some 0, 11⟩ : WeeklyRow),
          weeklyAutoRow 11 2, weeklyAutoRow 12 3] [1, 2, 3] 10 3 false 0) 11
      = some (weeklyAutoRow 11 1) := by
  decide

/-- Claim C4 (amended): the later iteration's override behaves as claimed — if
the edit leaves the off-week status unchanged, every other week's row is left
untouchable (conjunct 1), and if the status changes, every week strictly after
the edited one ends up either a preserved pinned row of the old table or a
freshly regenerated automatic row (conjunct 2).  The `backend/index.js`
override deletes unpinned downstream weeks and re-runs the rotator
unconditionally, so its downstream weeks are only ever preserved pins or
regenerated automatic rows, even when the off-week status is unchanged
(conjunct 3). -/
theorem weeklyOverride_downstream_behavior :
    (∀ (tbl : List WeeklyRow) (allNames : List Nat) (w nid : Nat) (off : Bool) (rs : Nat),
      weeklyOldOff tbl w = off →
      (overrideWeeklyDuty2 tbl allNames w nid off rs).filter (fun r => !(r.week == w))
        = tbl.filter (fun r => !(r.week == w))) ∧
    (∀ (tbl : List WeeklyRow) (allNames : List Nat) (w nid : Nat) (off : Bool) (rs : Nat),
      weeklyOldOff tbl w ≠ off →
      ∀ r ∈ overrideWeeklyDuty2 tbl allNames w nid off rs, w < r.week →
        (r.isEdited = true ∧ r ∈ tbl) ∨ weeklyAutoShaped r) ∧
    (∀ (tbl : List WeeklyRow) (allNames : List Nat) (w nid : Nat) (off : Bool) (rs : Nat),
      ∀ r ∈ overrideWeeklyDuty1 tbl allNames w nid off rs, w < r.week →
        (r.isEdited = true ∧ r ∈ tbl) ∨ weeklyAutoShaped r) :=
  ⟨overrideWeekly2_unchanged_frame, overrideWeekly2_changed_downstream,
   overrideWeekly1_downstream⟩

/-- Witness for `weeklyOverride_downstream_behavior`: re-pinning week 10 (off
status unchanged) in the later iteration leaves the other weeks' rows exactly
as they were. -/
theorem weeklyOverride_downstream_behavior_witness :
    weeklyOldOff [weeklyAutoRow 10 1, weeklyAutoRow 11 2] 10 = false ∧
    (overrideWeeklyDuty2 [weeklyAutoRow 10 1, weeklyAutoRow 11 2] [1, 2, 3] 10 3 false 5).filter
        (fun r => !(r.week == 10))
      = ([weeklyAutoRow 10 1, weeklyAutoRow 11 2] : List WeeklyRow).filter
          (fun r => !(r.week == 10)) :=
  ⟨by decide,
   weeklyOverride_downstream_behavior.1 [weeklyAutoRow 10 1, weeklyAutoRow 11 2] [1, 2, 3]
     10 3 false 5 (by decide)⟩

/-! ## Idempotence of `EnsureGenerated` (claim C1) -/

theorem regenGate_of_any (g : List GateRow) (d : Nat) (present : List Nat)
    (h : g.any (fun r => r.date == d) = true) :
    regenerateGateAssignment g d present = g := by
  unfold regenerateGateAssignment
  rw [h]
  simp

theorem regenGate_of_isEmpty (g : List GateRow) (d : Nat) (present : List Nat)
    (h : present.isEmpty = true) :
    regenerateGateAssignment g d present = g := by
  unfold regenerateGateAssignment
  rcases hany : g.any (fun r => r.date == d) with _ | _
  · simp [h]
  · simp

theorem regenGate_idem (g : List GateRow) (d : Nat) (present : List Nat) :
    regenerateGateAssignment (regenerateGateAssignment g d present) d present
      = regenerateGateAssignment g d present := by
  rcases hany : g.any (fun r => r.date == d) with _ | _
  · rcases hie : present.isEmpty with _ | _
    · have h1 : regenerateGateAssignment g d present
          = g ++ [(⟨d, gateNewMain present (gatePrevRow g d),
              gateNewBackup present (gateNewMain present (gatePrevRow g d))⟩ : GateRow)] := by
        unfold regenerateGateAssignment
        rw [hany, hie]
        simp
      have h2 : (g ++ [(⟨d, gateNewMain present (gatePrevRow g d),
            gateNewBackup present (gateNewMain present (gatePrevRow g d))⟩ : GateRow)]).any
            (fun r => r.date == d) = true := by
        simp
      rw [h1]
      exact regenGate_of_any _ d present h2
    · have h1 : regenerateGateAssignment g d present = g :=
        regenGate_of_isEmpty g d present hie
      rw [h1]
      exact h1
  · have h1 : regenerateGateAssignment g d present = g := regenGate_of_any g d present hany
    rw [h1]
    exact h1

theorem regenHourly_of_any (h : List HourlyRow) (d fromHour : Nat)
    (present shuffled : List Nat) (ha : h.any (fun r => r.date == d) = true) :
    regenerateHourlySchedule h d fromHour false present shuffled = h := by
  unfold regenerateHourlySchedule
  rw [ha]
  simp

theorem hourlyInsertOrIgnore_any_date (acc : List HourlyRow) (r : HourlyRow) (d : Nat)
    (hrd : r.date = d) :
    (hourlyInsertOrIgnore acc r).any (fun x => x.date == d) = true := by
  unfold hourlyInsertOrIgnore
  rcases hk : acc.any (fun x => x.date == r.date && x.time == r.time) with _ | _
  · simp [hrd]
  · rcases List.any_eq_true.mp hk with ⟨x, hx, hxk⟩
    have hxd : x.date = r.date := by
      have := hxk
      simp at this
      exact this.1
    rw [if_pos rfl]
    exact List.any_eq_true.mpr ⟨x, hx, by simp [hxd, hrd]⟩

theorem hourlyInsertOrIgnore_any_mono (acc : List HourlyRow) (r : HourlyRow)
    (p : HourlyRow → Bool) (h : acc.any p = true) :
    (hourlyInsertOrIgnore acc r).any p = true := by
  unfold hourlyInsertOrIgnore
  rcases acc.any (fun x => x.date == r.date && x.time == r.time) with _ | _
  · simp only [Bool.false_eq_true, if_false, List.any_append, h]
    simp
  · simpa using h

theorem foldl_hourlyInsert_any (d : Nat) (f : Nat → Nat) :
    ∀ (l : List Nat) (acc : List HourlyRow), acc.any (fun x => x.date == d) = true →
      (l.foldl (fun acc t => hourlyInsertOrIgnore acc
          { date := d, time := t, nameId := f t, isEdited := false,
            originalNameId := none, reason := none }) acc).any (fun x => x.date == d)
        = true := by
  intro l
  induction l with
  | nil => intro acc h; exact h
  | cons t l ih =>
    intro acc h
    rw [List.foldl_cons]
    exact ih _ (hourlyInsertOrIgnore_any_mono acc _ _ h)

theorem regenHourlyInsert_any (acc : List HourlyRow) (d : Nat) (sh : List Nat) :
    (regenHourlyInsert acc d 0 sh).any (fun x => x.date == d) = true := by
  unfold regenHourlyInsert
  have hts : timeSlots.filter (fun t => decide (0 ≤ t)) = timeSlots := by decide
  rw [hts]
  show ((8 :: [9, 10, 11, 12, 13]).foldl _ acc).any (fun x => x.date == d) = true
  rw [List.foldl_cons]
  apply foldl_hourlyInsert_any
  exact hourlyInsertOrIgnore_any_date acc _ d rfl

theorem regenHourly_idem (h : List HourlyRow) (d : Nat) (present sh1 sh2 : List Nat) :
    regenerateHourlySchedule (regenerateHourlySchedule h d 0 false present sh1) d 0 false
        present sh2
      = regenerateHourlySchedule h d 0 false present sh1 := by
  rcases ha : h.any (fun r => r.date == d) with _ | _
  · have hdel : hourlyDeleteFrom h d 0 = h := by
      apply filter_eq_self_of_all
      intro r hr
      have : (r.date == d) = false := by
        rcases hk : (r.date == d) with _ | _
        · rfl
        · have hcontr : h.any (fun x => x.date == d) = true :=
            List.any_eq_true.mpr ⟨r, hr, hk⟩
          rw [ha] at hcontr
          exact absurd hcontr (by simp)
      simp [this]
    rcases hie : present.isEmpty with _ | _
    · have h1 : regenerateHourlySchedule h d 0 false present sh1
          = regenHourlyInsert h d 0 sh1 := by
        unfold regenerateHourlySchedule
        rw [ha, hie, hdel]
        simp
      rw [h1]
      exact regenHourly_of_any _ d 0 present sh2 (regenHourlyInsert_any h d sh1)
    · have h1 : regenerateHourlySchedule h d 0 false present sh1 = h := by
        unfold regenerateHourlySchedule
        rw [ha, hie, hdel]
        simp
      rw [h1]
      unfold regenerateHourlySchedule
      rw [ha, hie, hdel]
      simp
  · have h1 : regenerateHourlySchedule h d 0 false present sh1 = h :=
      regenHourly_of_any h d 0 present sh1 ha
    rw [h1]
    exact regenHourly_of_any h d 0 present sh2 ha

theorem find?_isSome_of_mem {α : Type} (p : α → Bool) (l : List α) (x : α)
    (hx : x ∈ l) (hp : p x = true) : (l.find? p).isSome = true := by
  rcases hf : l.find? p with _ | y
  · have := List.find?_eq_none.mp hf x hx
    rw [hp] at this
    simp at this
  · rfl

theorem onCall_run_covers (allNames : List Nat) (tbl : List OnCallRow) :
    ∀ (keys : List (Nat × Nat)) (st : List OnCallRow × Nat), (∃ pre, st.1 = tbl ++ pre) →
      ∀ k ∈ keys, ∃ e ∈ (keys.foldl
          (onCallStep allNames (fun w d => onCallLookup tbl w d)) st).1,
        (e.week == k.1 && e.day == k.2) = true := by
  intro keys
  induction keys with
  | nil => intro st _ k hk; simp at hk
  | cons k0 keys ih =>
    intro st hpre k hk
    rw [List.foldl_cons]
    have hpre2 : ∃ pre2, (onCallStep allNames (fun w d => onCallLookup tbl w d) st k0).1
        = tbl ++ pre2 := by
      rcases hpre with ⟨pre, hp⟩
      rcases hs : onCallLookup tbl k0.1 k0.2 with _ | e
      · have hstep : (onCallStep allNames (fun w d => onCallLookup tbl w d) st k0).1
            = st.1 ++ [(⟨k0.1, k0.2, nextAfter allNames st.2⟩ : OnCallRow)] := by
          simp only [onCallStep, hs]
        rw [hstep]
        exact ⟨pre ++ [(⟨k0.1, k0.2, nextAfter allNames st.2⟩ : OnCallRow)],
          by rw [hp, List.append_assoc]⟩
      · have hstep : (onCallStep allNames (fun w d => onCallLookup tbl w d) st k0).1
            = st.1 := by
          simp only [onCallStep, hs]
        rw [hstep]
        exact ⟨pre, hp⟩
    rcases List.mem_cons.mp hk with hk0 | hk1
    · subst hk0
      rcases onCall_fold_append allNames (fun w d => onCallLookup tbl w d) keys
          (onCallStep allNames (fun w d => onCallLookup tbl w d) st k) with ⟨app, happ⟩
      rw [happ]
      rcases hs : onCallLookup tbl k.1 k.2 with _ | e
      · have hstep : (onCallStep allNames (fun w d => onCallLookup tbl w d) st k).1
            = st.1 ++ [(⟨k.1, k.2, nextAfter allNames st.2⟩ : OnCallRow)] := by
          simp only [onCallStep, hs]
        rw [hstep]
        refine ⟨(⟨k.1, k.2, nextAfter allNames st.2⟩ : OnCallRow), ?_, by simp⟩
        apply List.mem_append_left
        apply List.mem_append_right
        simp
      · have hek0 := List.find?_some hs
        have hek : (e.week == k.1 && e.day == k.2) = true := hek0
        have hemem : e ∈ tbl := List.mem_of_find?_eq_some hs
        have hstep : (onCallStep allNames (fun w d => onCallLookup tbl w d) st k).1
            = st.1 := by
          simp only [onCallStep, hs]
        rw [hstep]
        rcases hpre with ⟨pre, hp⟩
        refine ⟨e, ?_, hek⟩
        apply List.mem_append_left
        rw [hp]
        exact List.mem_append_left pre hemem
    · exact ih _ hpre2 k hk1

theorem onCall_fold_nowrite (allNames : List Nat) (snap2 : Nat → Nat → Option OnCallRow) :
    ∀ (keys : List (Nat × Nat)) (st : List OnCallRow × Nat),
      (∀ k ∈ keys, (snap2 k.1 k.2).isSome = true) →
      (keys.foldl (onCallStep allNames snap2) st).1 = st.1 := by
  intro keys
  induction keys with
  | nil => intro st _; rfl
  | cons k0 keys ih =>
    intro st hall
    rw [List.foldl_cons]
    have h0 := hall k0 (List.mem_cons_self k0 keys)
    rcases hs : snap2 k0.1 k0.2 with _ | e
    · rw [hs] at h0
      simp at h0
    · have hstep : onCallStep allNames snap2 st k0 = (st.1, e.nameId) := by
        unfold onCallStep
        rw [hs]
      rw [hstep]
      exact ih _ (fun k hk => hall k (List.mem_cons_of_mem k0 hk))

theorem generateOnCall_run2 (T1 : List OnCallRow) (p2 : Option Nat) (w0 : Nat)
    (allNames : List Nat) (hie : allNames.isEmpty = false)
    (hcov : ∀ k ∈ onCallKeys w0, (onCallLookup T1 k.1 k.2).isSome = true) :
    (generateOnCallSchedule T1 p2 w0 allNames).1 = T1 := by
  unfold generateOnCallSchedule
  rw [hie]
  simp only [Bool.false_eq_true, if_false]
  exact onCall_fold_nowrite allNames _ (onCallKeys w0) _ hcov

theorem generateOnCall_covers (tbl : List OnCallRow) (ptr : Option Nat) (w0 : Nat)
    (allNames : List Nat) (hie : allNames.isEmpty = false) :
    ∀ k ∈ onCallKeys w0,
      (onCallLookup (generateOnCallSchedule tbl ptr w0 allNames).1 k.1 k.2).isSome = true := by
  intro k hk
  unfold generateOnCallSchedule
  rw [hie]
  simp only [Bool.false_eq_true, if_false]
  rcases onCall_run_covers allNames tbl (onCallKeys w0)
      (tbl, (match onCallMostRecent tbl with
             | some e => e.nameId
             | none => onCallColdStartPtr allNames)) ⟨[], by simp⟩ k hk with ⟨e, hmem, hkey⟩
  exact find?_isSome_of_mem _ _ e hmem hkey

theorem generateOnCall_table_idem (tbl : List OnCallRow) (ptr ptr2 : Option Nat)
    (w0 : Nat) (allNames : List Nat) :
    (generateOnCallSchedule (generateOnCallSchedule tbl ptr w0 allNames).1 ptr2 w0 allNames).1
      = (generateOnCallSchedule tbl ptr w0 allNames).1 := by
  rcases hie : allNames.isEmpty with _ | _
  · exact generateOnCall_run2 _ ptr2 w0 allNames hie
      (generateOnCall_covers tbl ptr w0 allNames hie)
  · unfold generateOnCallSchedule
    rw [hie]
    simp

/-- The rows of a given week, in table order. -/
def weeklyRowsAt (T : List WeeklyRow) (wk : Nat) : List WeeklyRow :=
  T.filter (fun r => r.week == wk)

theorem anyLookup_eq_head_rowsAt (T : List WeeklyRow) (wk : Nat) :
    weeklyAnyLookup T wk = (weeklyRowsAt T wk).head? :=
  find?_eq_head?_filter _ T

theorem editedLookup_eq_rowsAt (T : List WeeklyRow) (wk : Nat) :
    weeklyEditedLookup T wk = (weeklyRowsAt T wk).find? (fun r => r.isEdited) := by
  unfold weeklyEditedLookup weeklyRowsAt
  have hcomm : (fun r : WeeklyRow => r.isEdited && (r.week == wk))
      = (fun r : WeeklyRow => (r.week == wk) && r.isEdited) :=
    funext fun r => Bool.and_comm _ _
  rw [hcomm, find?_and_eq_find?_filter]

theorem weeklyWindow_nodup (w0 : Nat) : (weeklyWindow w0).Nodup := by
  unfold weeklyWindow
  exact (List.nodup_range _).map (fun a b h => by omega)

theorem filter_map_const_of_key {α : Type} (p : α → Bool) (g : α → α) (r : α)
    (hg1 : ∀ a, p a = true → g a = r) (hg2 : ∀ a, p (g a) = p a) (l : List α) :
    (l.map g).filter p = (l.filter p).map (fun _ => r) := by
  induction l with
  | nil => rfl
  | cons x l ih =>
    rw [List.map_cons, List.filter_cons, List.filter_cons, hg2 x]
    rcases hp : p x with _ | _
    · simp only [Bool.false_eq_true, if_false]
      exact ih
    · simp only [if_true, List.map_cons, hg1 x hp]
      rw [ih]

theorem rowsAt_weeklyReplace_self (T : List WeeklyRow) (r : WeeklyRow) :
    weeklyRowsAt (weeklyReplace T r) r.week = (weeklyRowsAt T r.week).map (fun _ => r) := by
  unfold weeklyRowsAt weeklyReplace
  apply filter_map_const_of_key
  · intro a ha
    rw [if_pos ha]
  · intro a
    rcases hx : (a.week == r.week) with _ | _
    · simp [hx]
    · simp [hx]

theorem weeklyStep2_filter_stable (allNames : List Nat) (em am : Nat → Option WeeklyRow)
    (st : List WeeklyRow × Option Nat) (wk : Nat) (B : WeeklyRow → Bool)
    (hB1 : ∀ nid, B (weeklyAutoRow wk nid) = false)
    (hB2 : ∀ x, B x = true → x.week ≠ wk) :
    (weeklyStep2 allNames em am st wk).1.filter B = st.1.filter B := by
  have hmap : ∀ nid, (weeklyReplace st.1 (weeklyAutoRow wk nid)).filter B = st.1.filter B := by
    intro nid
    apply filter_map_of_pred
    · intro a ha
      have hne2 : (a.week == (weeklyAutoRow wk nid).week) = false := by
        rw [beq_eq_false_iff_ne]
        exact hB2 a ha
      rw [hne2]
      simp
    · intro a
      rcases haw : (a.week == (weeklyAutoRow wk nid).week) with _ | _
      · simp [haw]
      · have ha2 : a.week = wk := by simpa [weeklyAutoRow] using haw
        have hBa : B a = false := by
          rcases hb : B a with _ | _
          · rfl
          · exact absurd ha2 (hB2 a hb)
        simp [haw, hB1 nid, hBa]
  unfold weeklyStep2
  rcases hem : em wk with _ | er
  · rcases ham : am wk with _ | ar
    · rcases hcn : weeklyComputeNext allNames st.2 with _ | nid
      · rfl
      · exact filter_append_single_neg B st.1 (weeklyAutoRow wk nid) (hB1 nid)
    · rcases hb : (!ar.isEdited && ar.nameId.isSome && !ar.isOffWeek) with _ | _
      · rcases hcn : weeklyComputeNext allNames st.2 with _ | nid
        · simp [hb]
        · simp only [hb, Bool.false_eq_true, if_false, hcn]
          exact hmap nid
      · simp [hb]
  · rcases hb : (!er.isOffWeek && er.nameId.isSome) with _ | _ <;> simp [hb]

theorem foldl_weeklyStep2_filter_stable (allNames : List Nat)
    (em am : Nat → Option WeeklyRow) (B : WeeklyRow → Bool) :
    ∀ (ws : List Nat) (st : List WeeklyRow × Option Nat),
      (∀ wk ∈ ws, (∀ nid, B (weeklyAutoRow wk nid) = false) ∧
        (∀ x, B x = true → x.week ≠ wk)) →
      ((ws.foldl (weeklyStep2 allNames em am) st).1).filter B = st.1.filter B := by
  intro ws
  induction ws with
  | nil => intro st _; rfl
  | cons wk ws ih =>
    intro st hall
    rw [List.foldl_cons, ih _ (fun u hu => hall u (List.mem_cons_of_mem wk hu))]
    have h0 := hall wk (List.mem_cons_self wk ws)
    exact weeklyStep2_filter_stable allNames em am st wk B h0.1 h0.2

theorem weeklyComputeNext_isSome (allNames : List Nat) (p : Option Nat)
    (hp : p.isSome = true) : (weeklyComputeNext allNames p).isSome = true := by
  rcases p with _ | last
  · simp at hp
  · rfl

theorem weeklyStep2_ptr_isSome (allNames : List Nat) (em am : Nat → Option WeeklyRow)
    (st : List WeeklyRow × Option Nat) (wk : Nat) (hp : st.2.isSome = true) :
    (weeklyStep2 allNames em am st wk).2.isSome = true := by
  unfold weeklyStep2
  rcases hem : em wk with _ | er
  · rcases ham : am wk with _ | ar
    · rcases hcn : weeklyComputeNext allNames st.2 with _ | nid
      · exact hp
      · rfl
    · rcases hb : (!ar.isEdited && ar.nameId.isSome && !ar.isOffWeek) with _ | _
      · rcases hcn : weeklyComputeNext allNames st.2 with _ | nid
        · simpa [hb] using hp
        · simp [hb]
      · have har : ar.nameId.isSome = true := by
          have h1 := hb
          simp only [Bool.and_eq_true] at h1
          exact h1.1.2
        simpa [hb] using har
  · rcases hb : (!er.isOffWeek && er.nameId.isSome) with _ | _
    · simpa [hb] using hp
    · have her : er.nameId.isSome = true := by
        have h1 := hb
        simp only [Bool.and_eq_true] at h1
        exact h1.2
      simpa [hb] using her

theorem scanBefore_mem_isSome :
    ∀ (l : List WeeklyRow) (acc : Option WeeklyRow),
      (∀ x ∈ l, x.nameId.isSome = true) →
      (∀ q, acc = some q → q.nameId.isSome = true) →
      ∀ r, l.foldl (fun acc r =>
          match acc with
          | none => some r
          | some a => if a.week < r.week then some r else some a) acc = some r →
        r.nameId.isSome = true := by
  intro l
  induction l with
  | nil => intro acc _ hacc r hr; exact hacc r hr
  | cons x l ih =>
    intro acc hl hacc r hr
    rw [List.foldl_cons] at hr
    refine ih _ (fun y hy => hl y (List.mem_cons_of_mem x hy)) ?_ r hr
    intro q hq
    rcases acc with _ | a
    · have hxq : x = q := Option.some.inj hq
      rw [← hxq]
      exact hl x (List.mem_cons_self x l)
    · have hq' : (if a.week < x.week then some x else some a) = some q := hq
      by_cases hlt : a.week < x.week
      · rw [if_pos hlt] at hq'
        have hxq : x = q := Option.some.inj hq'
        rw [← hxq]
        exact hl x (List.mem_cons_self x l)
      · rw [if_neg hlt] at hq'
        have haq : a = q := Option.some.inj hq'
        rw [← haq]
        exact hacc a rfl

theorem weeklyInitPointer_isSome (tbl : List WeeklyRow) (w0 : Nat) (allNames : List Nat)
    (hne : allNames.isEmpty = false) :
    (weeklyInitPointer tbl w0 allNames).isSome = true := by
  unfold weeklyInitPointer
  rcases hs : weeklyScanBefore tbl w0 with _ | r
  · rcases allNames with _ | ⟨a, t⟩
    · simp at hne
    · rfl
  · have hmem : ∀ x ∈ tbl.filter
        (fun r => !r.isOffWeek && r.nameId.isSome && decide (r.week < w0)),
        x.nameId.isSome = true := by
      intro x hx
      have hp := List.of_mem_filter hx
      simp only [Bool.and_eq_true] at hp
      exact hp.1.2
    unfold weeklyScanBefore at hs
    exact scanBefore_mem_isSome _ none hmem (fun q hq => by simp at hq) r hs

/-- A window week is settled when it carries a pinned row or a correctly
populated automatic row — the later iteration's rotator then skips it. -/
def weeklySettled (T : List WeeklyRow) (wk : Nat) : Prop :=
  (weeklyEditedLookup T wk).isSome = true ∨
    ∃ ar, weeklyAnyLookup T wk = some ar ∧ ar.isEdited = false ∧
      ar.nameId.isSome = true ∧ ar.isOffWeek = false

theorem weeklySettled_of_rowsAt_eq (T1 T2 : List WeeklyRow) (w : Nat)
    (h : weeklyRowsAt T1 w = weeklyRowsAt T2 w) (hs : weeklySettled T2 w) :
    weeklySettled T1 w := by
  unfold weeklySettled at hs ⊢
  rw [editedLookup_eq_rowsAt, anyLookup_eq_head_rowsAt, h]
  rw [editedLookup_eq_rowsAt, anyLookup_eq_head_rowsAt] at hs
  exact hs

theorem weeklyFold2_nowrite (allNames : List Nat) (em am : Nat → Option WeeklyRow) :
    ∀ (ws : List Nat) (st : List WeeklyRow × Option Nat),
      (∀ wk ∈ ws, (em wk).isSome = true ∨
        ∃ ar, am wk = some ar ∧ ar.isEdited = false ∧ ar.nameId.isSome = true ∧
          ar.isOffWeek = false) →
      (ws.foldl (weeklyStep2 allNames em am) st).1 = st.1 := by
  intro ws
  induction ws with
  | nil => intro st _; rfl
  | cons wk ws ih =>
    intro st hall
    rw [List.foldl_cons]
    have hstep : (weeklyStep2 allNames em am st wk).1 = st.1 := by
      rcases hall wk (List.mem_cons_self wk ws) with h | ⟨ar, ham, h1, h2, h3⟩
      · unfold weeklyStep2
        rcases hem : em wk with _ | er
        · rw [hem] at h
          simp at h
        · rcases hb : (!er.isOffWeek && er.nameId.isSome) with _ | _ <;> simp [hb]
      · unfold weeklyStep2
        rcases hem : em wk with _ | er
        · rw [ham]
          simp [h1, h2, h3]
        · rcases hb : (!er.isOffWeek && er.nameId.isSome) with _ | _ <;> simp [hb]
    have h2 : ∀ u ∈ ws, (em u).isSome = true ∨
        ∃ ar, am u = some ar ∧ ar.isEdited = false ∧ ar.nameId.isSome = true ∧
          ar.isOffWeek = false := fun u hu => hall u (List.mem_cons_of_mem wk hu)
    rw [ih _ h2, hstep]

theorem weeklyFold2_establishes (allNames : List Nat) (tbl : List WeeklyRow) :
    ∀ (ws : List Nat), ws.Nodup →
      ∀ (T : List WeeklyRow) (p : Option Nat), p.isSome = true →
      (∀ u ∈ ws, weeklyRowsAt T u = weeklyRowsAt tbl u) →
      ∀ wk ∈ ws,
        weeklySettled
          ((ws.foldl (weeklyStep2 allNames (weeklyEditedLookup tbl) (weeklyAnyLookup tbl))
            (T, p)).1) wk := by
  intro ws
  induction ws with
  | nil => intro _ T p _ _ wk hwk; simp at hwk
  | cons w ws ih =>
    intro hnd T p hp hrows wk hwk
    have hw_not : w ∉ ws := (List.nodup_cons.mp hnd).1
    have hnd2 : ws.Nodup := (List.nodup_cons.mp hnd).2
    rw [List.foldl_cons]
    have hp1 : (weeklyStep2 allNames (weeklyEditedLookup tbl) (weeklyAnyLookup tbl)
        (T, p) w).2.isSome = true :=
      weeklyStep2_ptr_isSome allNames _ _ (T, p) w hp
    have hrows1 : ∀ u ∈ ws,
        weeklyRowsAt (weeklyStep2 allNames (weeklyEditedLookup tbl) (weeklyAnyLookup tbl)
          (T, p) w).1 u = weeklyRowsAt tbl u := by
      intro u hu
      have huw : u ≠ w := fun hc => hw_not (hc ▸ hu)
      have hstep := weeklyStep2_filter_stable allNames (weeklyEditedLookup tbl)
        (weeklyAnyLookup tbl) (T, p) w (fun r => r.week == u)
        (fun nid => by
          rw [beq_eq_false_iff_ne]
          exact fun hc => huw (Eq.symm hc))
        (fun x hx => by
          have hxw : x.week = u := by rwa [beq_iff_eq] at hx
          rw [hxw]
          exact huw)
      unfold weeklyRowsAt
      rw [hstep]
      exact hrows u (List.mem_cons_of_mem w hu)
    rcases List.mem_cons.mp hwk with rfl | hwk2
    · have hstab : weeklyRowsAt
          ((ws.foldl (weeklyStep2 allNames (weeklyEditedLookup tbl) (weeklyAnyLookup tbl))
            (weeklyStep2 allNames (weeklyEditedLookup tbl) (weeklyAnyLookup tbl)
              (T, p) wk)).1) wk
          = weeklyRowsAt (weeklyStep2 allNames (weeklyEditedLookup tbl)
              (weeklyAnyLookup tbl) (T, p) wk).1 wk := by
        unfold weeklyRowsAt
        apply foldl_weeklyStep2_filter_stable
        intro u hu
        have huw : u ≠ wk := fun hc => hw_not (hc ▸ hu)
        constructor
        · intro nid
          rw [beq_eq_false_iff_ne]
          exact fun hc => huw hc
        · intro x hx
          have hxw : x.week = wk := by rwa [beq_iff_eq] at hx
          rw [hxw]
          exact fun hc => huw (Eq.symm hc)
      apply weeklySettled_of_rowsAt_eq _ _ wk hstab
      have hrow0 : weeklyRowsAt T wk = weeklyRowsAt tbl wk :=
        hrows wk (List.mem_cons_self wk ws)
      rcases hem : weeklyEditedLookup tbl wk with _ | er
      · rcases ham : weeklyAnyLookup tbl wk with _ | ar
        · rcases hcn : weeklyComputeNext allNames p with _ | nid
          · exfalso
            have h1 := weeklyComputeNext_isSome allNames p hp
            rw [hcn] at h1
            simp at h1
          · have hst : (weeklyStep2 allNames (weeklyEditedLookup tbl)
                (weeklyAnyLookup tbl) (T, p) wk).1 = T ++ [weeklyAutoRow wk nid] := by
              unfold weeklyStep2
              rw [hem, ham]
              simp [hcn]
            rw [hst]
            right
            refine ⟨weeklyAutoRow wk nid, ?_, rfl, rfl, rfl⟩
            rw [anyLookup_eq_head_rowsAt]
            have hTnil : weeklyRowsAt T wk = [] := by
              have h1 := anyLookup_eq_head_rowsAt tbl wk
              rw [ham] at h1
              have h2 : weeklyRowsAt tbl wk = [] := by
                rcases hcase : weeklyRowsAt tbl wk with _ | ⟨a, l⟩
                · rfl
                · rw [hcase] at h1
                  simp at h1
              rw [hrow0, h2]
            unfold weeklyRowsAt at hTnil ⊢
            rw [List.filter_append, hTnil]
            simp [weeklyAutoRow]
        · rcases hb : (!ar.isEdited && ar.nameId.isSome && !ar.isOffWeek) with _ | _
          · rcases hcn : weeklyComputeNext allNames p with _ | nid
            · exfalso
              have h1 := weeklyComputeNext_isSome allNames p hp
              rw [hcn] at h1
              simp at h1
            · have hst : (weeklyStep2 allNames (weeklyEditedLookup tbl)
                  (weeklyAnyLookup tbl) (T, p) wk).1
                  = weeklyReplace T (weeklyAutoRow wk nid) := by
                unfold weeklyStep2
                rw [hem, ham]
                simp [hb, hcn]
              rw [hst]
              right
              refine ⟨weeklyAutoRow wk nid, ?_, rfl, rfl, rfl⟩
              rw [anyLookup_eq_head_rowsAt]
              have hrw := rowsAt_weeklyReplace_self T (weeklyAutoRow wk nid)
              rw [show (weeklyAutoRow wk nid).week = wk from rfl] at hrw
              rw [hrw, List.head?_map, hrow0, ← anyLookup_eq_head_rowsAt, ham]
              rfl
          · have hst : (weeklyStep2 allNames (weeklyEditedLookup tbl)
                (weeklyAnyLookup tbl) (T, p) wk).1 = T := by
              unfold weeklyStep2
              rw [hem, ham]
              simp [hb]
            rw [hst]
            right
            have hsplit := hb
            simp only [Bool.and_eq_true] at hsplit
            have he : ar.isEdited = false := by
              have h1 := hsplit.1.1
              rcases h : ar.isEdited with _ | _
              · rfl
              · rw [h] at h1
                simp at h1
            have ho : ar.isOffWeek = false := by
              have h1 := hsplit.2
              rcases h : ar.isOffWeek with _ | _
              · rfl
              · rw [h] at h1
                simp at h1
            refine ⟨ar, ?_, he, hsplit.1.2, ho⟩
            rw [anyLookup_eq_head_rowsAt, hrow0, ← anyLookup_eq_head_rowsAt]
            exact ham
      · have hst : (weeklyStep2 allNames (weeklyEditedLookup tbl)
            (weeklyAnyLookup tbl) (T, p) wk).1 = T := by
          unfold weeklyStep2
          rw [hem]
          rcases hcond : (!er.isOffWeek && er.nameId.isSome) with _ | _ <;> simp [hcond]
        rw [hst]
        left
        rw [editedLookup_eq_rowsAt, hrow0, ← editedLookup_eq_rowsAt, hem]
        rfl
    · exact ih hnd2 _ _ hp1 hrows1 wk hwk2

theorem regenWeekly2_noop_of_settled (T1 : List WeeklyRow) (w0 : Nat) (allNames : List Nat)
    (hs : ∀ wk ∈ weeklyWindow w0, weeklySettled T1 wk) :
    regenerateWeeklyDuty2 T1 w0 allNames = T1 := by
  unfold regenerateWeeklyDuty2
  rcases he : allNames.isEmpty with _ | _
  · simp only [Bool.false_eq_true, if_false]
    apply weeklyFold2_nowrite
    intro wk hwk
    exact hs wk hwk
  · simp

theorem regenWeekly2_idem (tbl : List WeeklyRow) (w0 : Nat) (allNames : List Nat) :
    regenerateWeeklyDuty2 (regenerateWeeklyDuty2 tbl w0 allNames) w0 allNames
      = regenerateWeeklyDuty2 tbl w0 allNames := by
  rcases he : allNames.isEmpty with _ | _
  · apply regenWeekly2_noop_of_settled
    intro wk hwk
    have hp0 := weeklyInitPointer_isSome tbl w0 allNames he
    have h1 := weeklyFold2_establishes allNames tbl (weeklyWindow w0)
      (weeklyWindow_nodup w0) tbl (weeklyInitPointer tbl w0 allNames) hp0
      (fun u _ => rfl) wk hwk
    unfold regenerateWeeklyDuty2
    rw [he]
    simp only [Bool.false_eq_true, if_false]
    exact h1
  · have hid : ∀ X : List WeeklyRow, regenerateWeeklyDuty2 X w0 allNames = X := by
      intro X
      unfold regenerateWeeklyDuty2
      rw [he]
      simp
    rw [hid, hid]

theorem find?_map_of_pred_mem {α : Type} (p : α → Bool) (g : α → α) :
    ∀ (l : List α),
      (∀ a ∈ l, p (g a) = p a) → (∀ a ∈ l, p a = true → g a = a) →
      (l.map g).find? p = l.find? p := by
  intro l
  induction l with
  | nil => intro _ _; rfl
  | cons a l ih =>
    intro h1 h2
    have ha1 := h1 a (List.mem_cons_self a l)
    rcases hp : p a with _ | _
    · simp only [List.map_cons, List.find?_cons, ha1, hp]
      exact ih (fun x hx => h1 x (List.mem_cons_of_mem a hx))
        (fun x hx => h2 x (List.mem_cons_of_mem a hx))
    · simp only [List.map_cons, List.find?_cons, ha1, hp]
      rw [h2 a (List.mem_cons_self a l) hp]

theorem editedLookup_upsert_auto (T : List WeeklyRow) (wk nid : Nat)
    (hno : weeklyEditedLookup T wk = none) (wk2 : Nat) :
    weeklyEditedLookup (weeklyUpsertReplace T (weeklyAutoRow wk nid)) wk2
      = weeklyEditedLookup T wk2 := by
  have hnone : ∀ x ∈ T, ¬ (x.isEdited && x.week == wk) = true := by
    intro x hx
    exact List.find?_eq_none.mp hno x hx
  unfold weeklyUpsertReplace
  rcases hany : T.any (fun x => x.week == (weeklyAutoRow wk nid).week) with _ | _
  · simp only [Bool.false_eq_true, if_false]
    unfold weeklyEditedLookup
    rcases hf : T.find? (fun r => r.isEdited && r.week == wk2) with _ | r
    · rw [find?_append_none _ _ _ hf]
      simp [weeklyAutoRow, hf]
    · rw [hf]
      exact find?_append_some _ _ _ r hf
  · simp only [if_true]
    unfold weeklyEditedLookup weeklyReplace
    apply find?_map_of_pred_mem
    · intro a ha
      rcases hw : (a.week == (weeklyAutoRow wk nid).week) with _ | _
      · simp [hw]
      · have hw2 : (a.week == wk) = true := hw
        have hae : a.isEdited = false := by
          rcases h : a.isEdited with _ | _
          · rfl
          · exfalso
            apply hnone a ha
            rw [h, hw2]
            rfl
        simp only [hw, if_true]
        rw [hae]
        simp [weeklyAutoRow]
    · intro a ha hp
      have hp2 := hp
      simp only [Bool.and_eq_true] at hp2
      have h1 : a.isEdited = true := hp2.1
      have hwne : (a.week == wk) = false := by
        rcases h : (a.week == wk) with _ | _
        · rfl
        · exfalso
          apply hnone a ha
          rw [h1, h]
          rfl
      have hwne2 : (a.week == (weeklyAutoRow wk nid).week) = false := hwne
      simp [hwne2]

theorem weeklyStep1_edited_stable (allNames : List Nat) (tbl : List WeeklyRow)
    (st : List WeeklyRow × Option Nat) (wk : Nat)
    (hinv : ∀ u, weeklyEditedLookup st.1 u = weeklyEditedLookup tbl u) :
    ∀ u, weeklyEditedLookup (weeklyStep1 allNames (weeklyEditedLookup tbl) st wk).1 u
      = weeklyEditedLookup tbl u := by
  intro u
  rcases hem : weeklyEditedLookup tbl wk with _ | er
  · rcases hcn : weeklyComputeNext allNames st.2 with _ | nid
    · have hstep : (weeklyStep1 allNames (weeklyEditedLookup tbl) st wk).1 = st.1 := by
        unfold weeklyStep1
        rw [hem]
        simp [hcn]
      rw [hstep]
      exact hinv u
    · have hstep : (weeklyStep1 allNames (weeklyEditedLookup tbl) st wk).1
          = weeklyUpsertReplace st.1 (weeklyAutoRow wk nid) := by
        unfold weeklyStep1
        rw [hem]
        simp [hcn]
      have hno : weeklyEditedLookup st.1 wk = none := by
        rw [hinv wk]
        exact hem
      rw [hstep, editedLookup_upsert_auto st.1 wk nid hno u]
      exact hinv u
  · have hstep : (weeklyStep1 allNames (weeklyEditedLookup tbl) st wk).1 = st.1 := by
      unfold weeklyStep1
      rw [hem]
      rcases hc : (!er.isOffWeek && er.nameId.isSome) with _ | _ <;> simp [hc]
    rw [hstep]
    exact hinv u

theorem weeklyFold1_edited_stable (allNames : List Nat) (tbl : List WeeklyRow) :
    ∀ (ws : List Nat) (st : List WeeklyRow × Option Nat),
      (∀ u, weeklyEditedLookup st.1 u = weeklyEditedLookup tbl u) →
      ∀ u, weeklyEditedLookup
          ((ws.foldl (weeklyStep1 allNames (weeklyEditedLookup tbl)) st).1) u
        = weeklyEditedLookup tbl u := by
  intro ws
  induction ws with
  | nil => intro st hinv u; exact hinv u
  | cons w ws ih =>
    intro st hinv u
    rw [List.foldl_cons]
    exact ih _ (weeklyStep1_edited_stable allNames tbl st w hinv) u

theorem weeklyUpsert_filter_stable (T : List WeeklyRow) (wk nid : Nat) (B : WeeklyRow → Bool)
    (hB1 : B (weeklyAutoRow wk nid) = false)
    (hB2 : ∀ x, B x = true → x.week ≠ wk) :
    (weeklyUpsertReplace T (weeklyAutoRow wk nid)).filter B = T.filter B := by
  unfold weeklyUpsertReplace
  rcases hany : T.any (fun x => x.week == (weeklyAutoRow wk nid).week) with _ | _
  · simp only [Bool.false_eq_true, if_false]
    exact filter_append_single_neg B T _ hB1
  · simp only [if_true]
    unfold weeklyReplace
    apply filter_map_of_pred
    · intro a ha
      have hne2 : (a.week == (weeklyAutoRow wk nid).week) = false := by
        rw [beq_eq_false_iff_ne]
        exact hB2 a ha
      simp [hne2]
    · intro a
      rcases haw : (a.week == (weeklyAutoRow wk nid).week) with _ | _
      · simp [haw]
      · have ha2 : a.week = wk := by simpa [weeklyAutoRow] using haw
        have hBa : B a = false := by
          rcases hb : B a with _ | _
          · rfl
          · exact absurd ha2 (hB2 a hb)
        simp [haw, hB1, hBa]

theorem weeklyStep1_filter_stable (allNames : List Nat) (em : Nat → Option WeeklyRow)
    (st : List WeeklyRow × Option Nat) (wk : Nat) (B : WeeklyRow → Bool)
    (hB1 : ∀ nid, B (weeklyAutoRow wk nid) = false)
    (hB2 : ∀ x, B x = true → x.week ≠ wk) :
    (weeklyStep1 allNames em st wk).1.filter B = st.1.filter B := by
  unfold weeklyStep1
  rcases hem : em wk with _ | er
  · rcases hcn : weeklyComputeNext allNames st.2 with _ | nid
    · rfl
    · exact weeklyUpsert_filter_stable st.1 wk nid B (hB1 nid) hB2
  · rcases hb : (!er.isOffWeek && er.nameId.isSome) with _ | _ <;> simp [hb]

theorem foldl_weeklyStep1_filter_stable (allNames : List Nat)
    (em : Nat → Option WeeklyRow) (B : WeeklyRow → Bool) :
    ∀ (ws : List Nat) (st : List WeeklyRow × Option Nat),
      (∀ wk ∈ ws, (∀ nid, B (weeklyAutoRow wk nid) = false) ∧
        (∀ x, B x = true → x.week ≠ wk)) →
      ((ws.foldl (weeklyStep1 allNames em) st).1).filter B = st.1.filter B := by
  intro ws
  induction ws with
  | nil => intro st _; rfl
  | cons wk ws ih =>
    intro st hall
    rw [List.foldl_cons, ih _ (fun u hu => hall u (List.mem_cons_of_mem wk hu))]
    have h0 := hall wk (List.mem_cons_self wk ws)
    exact weeklyStep1_filter_stable allNames em st wk B h0.1 h0.2

theorem weeklyReplace_self (T : List WeeklyRow) (r : WeeklyRow)
    (h : ∀ x ∈ T, x.week = r.week → x = r) : weeklyReplace T r = T := by
  unfold weeklyReplace
  have hmem : ∀ x ∈ T, (if x.week == r.week then r else x) = x := by
    intro x hx
    rcases hw : (x.week == r.week) with _ | _
    · simp [hw]
    · have hxr : x = r := h x hx (by rwa [beq_iff_eq] at hw)
      simp [hw, hxr]
  rw [List.map_congr_left hmem]
  exact List.map_id T

theorem weeklyUpsert_absorb (T : List WeeklyRow) (r : WeeklyRow)
    (hne : weeklyRowsAt T r.week ≠ [])
    (hall : ∀ x ∈ weeklyRowsAt T r.week, x = r) :
    weeklyUpsertReplace T r = T := by
  have hany : T.any (fun x => x.week == r.week) = true := by
    rcases hcase : weeklyRowsAt T r.week with _ | ⟨a, l⟩
    · exact absurd hcase hne
    · have ha : a ∈ weeklyRowsAt T r.week := by
        rw [hcase]
        exact List.mem_cons_self a l
      have ha2 := List.mem_filter.mp ha
      exact List.any_eq_true.mpr ⟨a, ha2.1, ha2.2⟩
  unfold weeklyUpsertReplace
  simp only [hany, if_true]
  apply weeklyReplace_self
  intro x hx hw
  exact hall x (List.mem_filter.mpr ⟨hx, by rwa [beq_iff_eq]⟩)

theorem rowsAt_upsert_auto (T : List WeeklyRow) (wk nid : Nat) :
    weeklyRowsAt (weeklyUpsertReplace T (weeklyAutoRow wk nid)) wk ≠ [] ∧
      ∀ x ∈ weeklyRowsAt (weeklyUpsertReplace T (weeklyAutoRow wk nid)) wk,
        x = weeklyAutoRow wk nid := by
  unfold weeklyUpsertReplace
  rcases hany : T.any (fun x => x.week == (weeklyAutoRow wk nid).week) with _ | _
  · simp only [Bool.false_eq_true, if_false]
    have hTnil : weeklyRowsAt T wk = [] := by
      rcases hcase : weeklyRowsAt T wk with _ | ⟨a, l⟩
      · rfl
      · exfalso
        have ha : a ∈ weeklyRowsAt T wk := by
          rw [hcase]
          exact List.mem_cons_self a l
        have ha2 := List.mem_filter.mp ha
        have hcontr : T.any (fun x => x.week == (weeklyAutoRow wk nid).week) = true :=
          List.any_eq_true.mpr ⟨a, ha2.1, ha2.2⟩
        rw [hany] at hcontr
        simp at hcontr
    have hsingle : weeklyRowsAt (T ++ [weeklyAutoRow wk nid]) wk = [weeklyAutoRow wk nid] := by
      unfold weeklyRowsAt at hTnil ⊢
      rw [List.filter_append, hTnil]
      simp [weeklyAutoRow]
    constructor
    · rw [hsingle]
      simp
    · intro x hx
      rw [hsingle] at hx
      simpa using hx
  · simp only [if_true]
    have hrw := rowsAt_weeklyReplace_self T (weeklyAutoRow wk nid)
    rw [show (weeklyAutoRow wk nid).week = wk from rfl] at hrw
    have hTne : weeklyRowsAt T wk ≠ [] := by
      intro hnil
      rcases List.any_eq_true.mp hany with ⟨a, haT, hap⟩
      have ham : a ∈ weeklyRowsAt T wk := List.mem_filter.mpr ⟨haT, hap⟩
      rw [hnil] at ham
      simp at ham
    constructor
    · rw [hrw]
      intro hmap
      apply hTne
      rcases hcase : weeklyRowsAt T wk with _ | ⟨a, l⟩
      · rfl
      · rw [hcase] at hmap
        simp at hmap
    · intro x hx
      rw [hrw] at hx
      rcases List.mem_map.mp hx with ⟨y, hy, hyx⟩
      exact hyx.symm

theorem weeklyComputeNext_some_of_ne (allNames : List Nat) (p : Option Nat)
    (hne : allNames.isEmpty = false) : ∃ nid, weeklyComputeNext allNames p = some nid := by
  rcases p with _ | last
  · rcases allNames with _ | ⟨a, t⟩
    · simp at hne
    · exact ⟨a, rfl⟩
  · exact ⟨nextAfter allNames last, rfl⟩

theorem weeklyFold1_absorb (allNames : List Nat) (em : Nat → Option WeeklyRow)
    (hne : allNames.isEmpty = false) :
    ∀ (ws : List Nat), ws.Nodup → ∀ (T : List WeeklyRow) (p : Option Nat),
      (ws.foldl (weeklyStep1 allNames em)
        ((ws.foldl (weeklyStep1 allNames em) (T, p)).1, p)).1
      = (ws.foldl (weeklyStep1 allNames em) (T, p)).1 := by
  intro ws
  induction ws with
  | nil => intro _ T p; rfl
  | cons w ws ih =>
    intro hnd T p
    have hw_not : w ∉ ws := (List.nodup_cons.mp hnd).1
    have hnd2 : ws.Nodup := (List.nodup_cons.mp hnd).2
    rcases hem : em w with _ | er
    · obtain ⟨nid, hcn⟩ := weeklyComputeNext_some_of_ne allNames p hne
      have hstep : ∀ X : List WeeklyRow, weeklyStep1 allNames em (X, p) w
          = (weeklyUpsertReplace X (weeklyAutoRow w nid), some nid) := by
        intro X
        unfold weeklyStep1
        rw [hem]
        simp [hcn]
      simp only [List.foldl_cons, hstep]
      have hstab : weeklyRowsAt
          ((ws.foldl (weeklyStep1 allNames em)
            (weeklyUpsertReplace T (weeklyAutoRow w nid), some nid)).1) w
          = weeklyRowsAt (weeklyUpsertReplace T (weeklyAutoRow w nid)) w := by
        unfold weeklyRowsAt
        apply foldl_weeklyStep1_filter_stable
        intro u hu
        have huw : u ≠ w := fun hc => hw_not (hc ▸ hu)
        constructor
        · intro nid2
          rw [beq_eq_false_iff_ne]
          exact fun hc => huw hc
        · intro x hx
          have hxw : x.week = w := by rwa [beq_iff_eq] at hx
          rw [hxw]
          exact fun hc => huw (Eq.symm hc)
      have hfacts := rowsAt_upsert_auto T w nid
      have habs : weeklyUpsertReplace
          ((ws.foldl (weeklyStep1 allNames em)
            (weeklyUpsertReplace T (weeklyAutoRow w nid), some nid)).1)
          (weeklyAutoRow w nid)
          = (ws.foldl (weeklyStep1 allNames em)
            (weeklyUpsertReplace T (weeklyAutoRow w nid), some nid)).1 := by
        apply weeklyUpsert_absorb
        · rw [show (weeklyAutoRow w nid).week = w from rfl, hstab]
          exact hfacts.1
        · intro x hx
          rw [show (weeklyAutoRow w nid).week = w from rfl, hstab] at hx
          exact hfacts.2 x hx
      rw [habs]
      exact ih hnd2 (weeklyUpsertReplace T (weeklyAutoRow w nid)) (some nid)
    · have hstep : ∀ X : List WeeklyRow, weeklyStep1 allNames em (X, p) w
          = (X, if !er.isOffWeek && er.nameId.isSome then er.nameId else p) := by
        intro X
        unfold weeklyStep1
        rw [hem]
        rcases hc : (!er.isOffWeek && er.nameId.isSome) with _ | _ <;> simp [hc]
      simp only [List.foldl_cons, hstep]
      exact ih hnd2 T _

theorem regenWeekly1_idem (tbl : List WeeklyRow) (w0 : Nat) (allNames : List Nat) :
    regenerateWeeklyDuty1 (regenerateWeeklyDuty1 tbl w0 allNames) w0 allNames
      = regenerateWeeklyDuty1 tbl w0 allNames := by
  rcases he : allNames.isEmpty with _ | _
  · have hwin : ∀ wk ∈ weeklyWindow w0, ¬ wk < w0 := by
      intro wk hwk
      unfold weeklyWindow at hwk
      rcases List.mem_map.mp hwk with ⟨i, hi, hw⟩
      omega
    have hT1 : regenerateWeeklyDuty1 tbl w0 allNames
        = ((weeklyWindow w0).foldl (weeklyStep1 allNames (weeklyEditedLookup tbl))
            (tbl, weeklyInitPointer tbl w0 allNames)).1 := by
      unfold regenerateWeeklyDuty1
      rw [he]
      simp
    have hedit : weeklyEditedLookup
        ((weeklyWindow w0).foldl (weeklyStep1 allNames (weeklyEditedLookup tbl))
          (tbl, weeklyInitPointer tbl w0 allNames)).1
        = weeklyEditedLookup tbl :=
      funext (fun u => weeklyFold1_edited_stable allNames tbl (weeklyWindow w0)
        (tbl, weeklyInitPointer tbl w0 allNames) (fun v => rfl) u)
    have hfilter : ∀ q : Option Nat,
        (((weeklyWindow w0).foldl (weeklyStep1 allNames (weeklyEditedLookup tbl))
          (tbl, q)).1).filter
          (fun r => !r.isOffWeek && r.nameId.isSome && decide (r.week < w0))
        = tbl.filter (fun r => !r.isOffWeek && r.nameId.isSome && decide (r.week < w0)) := by
      intro q
      apply foldl_weeklyStep1_filter_stable
      intro wk hwk
      have hge := hwin wk hwk
      constructor
      · intro nid
        simp [weeklyAutoRow]
        omega
      · intro x hx
        simp only [Bool.and_eq_true, decide_eq_true_eq] at hx
        intro hc
        exact hge (hc ▸ hx.2)
    have hptr : ∀ q : Option Nat, weeklyInitPointer
        ((weeklyWindow w0).foldl (weeklyStep1 allNames (weeklyEditedLookup tbl))
          (tbl, q)).1 w0 allNames
        = weeklyInitPointer tbl w0 allNames := by
      intro q
      unfold weeklyInitPointer weeklyScanBefore
      rw [hfilter q]
    rw [hT1]
    unfold regenerateWeeklyDuty1
    rw [he]
    simp only [Bool.false_eq_true, if_false]
    rw [hedit, hptr (weeklyInitPointer tbl w0 allNames)]
    exact weeklyFold1_absorb allNames (weeklyEditedLookup tbl) he (weeklyWindow w0)
      (weeklyWindow_nodup w0) tbl (weeklyInitPointer tbl w0 allNames)
  · have hid : ∀ X : List WeeklyRow, regenerateWeeklyDuty1 X w0 allNames = X := by
      intro X
      unfold regenerateWeeklyDuty1
      rw [he]
      simp
    rw [hid, hid]

/-- C1: for every date `d`, running `EnsureGenerated(d)`'s regeneration engine
twice in a row with no intervening roster or absence change leaves all slot
tables identical to those after the first run — for the hourly, gate and
weekly-duty tables of the `backend/index.js` engine (`regenerateAll1`) and for
the hourly, gate, weekly-duty and on-call tables of the later `part_003`
engine (`regenerateAll2`), regardless of the shuffle outcomes `sh1`, `sh2` of
the two runs. -/
theorem ensureGenerated_idempotent (db : DB) (d : Nat) (sh1 sh2 : List Nat) :
    ((regenerateAll1 (regenerateAll1 db d sh1) d sh2).hourly
        = (regenerateAll1 db d sh1).hourly
      ∧ (regenerateAll1 (regenerateAll1 db d sh1) d sh2).gate
        = (regenerateAll1 db d sh1).gate
      ∧ (regenerateAll1 (regenerateAll1 db d sh1) d sh2).weekly
        = (regenerateAll1 db d sh1).weekly)
    ∧ ((regenerateAll2 (regenerateAll2 db d sh1) d sh2).hourly
        = (regenerateAll2 db d sh1).hourly
      ∧ (regenerateAll2 (regenerateAll2 db d sh1) d sh2).gate
        = (regenerateAll2 db d sh1).gate
      ∧ (regenerateAll2 (regenerateAll2 db d sh1) d sh2).weekly
        = (regenerateAll2 db d sh1).weekly
      ∧ (regenerateAll2 (regenerateAll2 db d sh1) d sh2).oncall
        = (regenerateAll2 db d sh1).oncall) := by
  refine ⟨⟨?_, ?_, ?_⟩, ?_, ?_, ?_, ?_⟩
  · show regenerateHourlySchedule
        (regenerateHourlySchedule db.hourly d 0 false (presentOn db.names db.absences d) sh1)
        d 0 false (presentOn db.names db.absences d) sh2
      = regenerateHourlySchedule db.hourly d 0 false (presentOn db.names db.absences d) sh1
    exact regenHourly_idem db.hourly d (presentOn db.names db.absences d) sh1 sh2
  · show regenerateGateAssignment
        (regenerateGateAssignment db.gate d (presentOn db.names db.absences d))
        d (presentOn db.names db.absences d)
      = regenerateGateAssignment db.gate d (presentOn db.names db.absences d)
    exact regenGate_idem db.gate d (presentOn db.names db.absences d)
  · show regenerateWeeklyDuty1
        (regenerateWeeklyDuty1 db.weekly (weekOfDate d) db.names) (weekOfDate d) db.names
      = regenerateWeeklyDuty1 db.weekly (weekOfDate d) db.names
    exact regenWeekly1_idem db.weekly (weekOfDate d) db.names
  · show regenerateHourlySchedule
        (regenerateHourlySchedule db.hourly d 0 false (presentOn db.names db.absences d) sh1)
        d 0 false (presentOn db.names db.absences d) sh2
      = regenerateHourlySchedule db.hourly d 0 false (presentOn db.names db.absences d) sh1
    exact regenHourly_idem db.hourly d (presentOn db.names db.absences d) sh1 sh2
  · show regenerateGateAssignment
        (regenerateGateAssignment db.gate d (presentOn db.names db.absences d))
        d (presentOn db.names db.absences d)
      = regenerateGateAssignment db.gate d (presentOn db.names db.absences d)
    exact regenGate_idem db.gate d (presentOn db.names db.absences d)
  · show regenerateWeeklyDuty2
        (regenerateWeeklyDuty2 db.weekly (weekOfDate d) db.names) (weekOfDate d) db.names
      = regenerateWeeklyDuty2 db.weekly (weekOfDate d) db.names
    exact regenWeekly2_idem db.weekly (weekOfDate d) db.names
  · show (generateOnCallSchedule
        (generateOnCallSchedule db.oncall db.oncallPtr (weekOfDate d) db.names).1
        (generateOnCallSchedule db.oncall db.oncallPtr (weekOfDate d) db.names).2
        (weekOfDate d) db.names).1
      = (generateOnCallSchedule db.oncall db.oncallPtr (weekOfDate d) db.names).1
    exact generateOnCall_table_idem db.oncall db.oncallPtr
      (generateOnCallSchedule db.oncall db.oncallPtr (weekOfDate d) db.names).2
      (weekOfDate d) db.names
